import Mathlib

/-!
# Fixed-capacity free-list arena (`MemoryResource`) and `Vector`

A shallow embedding of `lab5/include/MemoryResource.hpp` and
`lab5/include/Vector.hpp`.

* `std::size_t` values are natural numbers below `W = 2 ^ 64`; every
  `size_t` addition and subtraction of the source is written with an explicit
  reduction modulo `W` (`uadd`, `usub`).
* `std::list<Block>` is `List Block`; an iterator is a position in the list.
* Addresses (`void*`, `std::byte*`) are natural numbers, `0` is `nullptr`, and
  the pointer difference `bytep - buffer_` is an integer.
* A member function that may throw returns the pair of its outcome and of the
  object state at the point where it returns or throws.
-/

namespace Lab5

/-! ## `MemoryResource` -/

/-- One more than the largest `std::size_t` value. -/
def W : Nat := 2 ^ 64

/-- Addition of two `std::size_t` values. -/
def uadd (a b : Nat) : Nat := (a + b) % W

/-- Subtraction of two `std::size_t` values (both below `W`). -/
def usub (a b : Nat) : Nat := (a + W - b) % W

/-- The ways a call can fail: the exceptions `std::bad_alloc`,
`std::runtime_error` (pointer not from this resource) and
`std::bad_array_new_length` (thrown by `polymorphic_allocator::allocate`), the
failed `assert` of `operator[]`, and `undefined_behaviour`, which is not an
exception: it stands for a call that writes outside the storage block, to which
C++ gives no meaning. -/
inductive Error where
  | bad_alloc
  | runtime_error
  | bad_array_new_length
  | assertion_failure
  | undefined_behaviour
  deriving DecidableEq, Repr

deriving instance DecidableEq for Except

/-- The struct `MemoryResource::Block`. -/
structure Block where
  offset : Nat
  size : Nat
  deriving DecidableEq, Repr

/-- The data members of `MemoryResource`. -/
structure MemoryResource where
  buffer_ : Nat
  total_size_ : Nat
  free_list_ : List Block
  allocated_list_ : List Block
  deriving DecidableEq, Repr

/-- The constructor `MemoryResource(total_size)`; `buffer` is the address
returned by `::operator new(total_size_)`. -/
def MemoryResource.create (buffer total_size : Nat) : MemoryResource :=
  { buffer_ := buffer, total_size_ := total_size,
    free_list_ := [⟨0, total_size⟩], allocated_list_ := [] }

/-- The function `MemoryResource::align_up`. -/
def align_up (x alignment : Nat) : Nat :=
  let mod := x % alignment
  if mod = 0 then x else uadd x (usub alignment mod)

/-- The test made on one free block by the loop body of `find_fit`: the block
is not skipped by `if (aligned_start < start) continue;` and
`padding + size <= it->size`. -/
def fit_test (size alignment : Nat) (it : Block) : Bool :=
  let start := it.offset
  let aligned_start := align_up start alignment
  if aligned_start < start then false
  else
    let padding := usub aligned_start start
    decide (uadd padding size ≤ it.size)

/-- The function `MemoryResource::find_fit` over the free list: the position of the first
block that passes the test together with that block, `none` for
`free_list_.end()`. -/
def find_fit (size alignment : Nat) : List Block → Option (Nat × Block)
  | [] => none
  | it :: rest =>
    if fit_test size alignment it then some (0, it)
    else (find_fit size alignment rest).map (fun r => (r.1 + 1, r.2))

/-- The function `MemoryResource::do_allocate`: the outcome is the returned address
`buffer_ + aligned_start` or `std::bad_alloc`. -/
def do_allocate (m : MemoryResource) (bytes alignment : Nat) :
    Except Error Nat × MemoryResource :=
  match find_fit bytes alignment m.free_list_ with
  | none => (.error .bad_alloc, m)
  | some (i, it) =>
    let start := it.offset
    let aligned_start := align_up start alignment
    let preceding_padding := usub aligned_start start
    let remaining_after := usub it.size (uadd preceding_padding bytes)
    let allocated := m.allocated_list_ ++ [⟨aligned_start, bytes⟩]
    let original_offset := it.offset
    let free0 := m.free_list_.eraseIdx i
    let free1 := if 0 < preceding_padding then free0 ++ [⟨original_offset, preceding_padding⟩]
      else free0
    let free2 := if 0 < remaining_after then free1 ++ [⟨uadd aligned_start bytes, remaining_after⟩]
      else free1
    (.ok (m.buffer_ + aligned_start),
      { m with free_list_ := free2, allocated_list_ := allocated })

/-- The comparison used by `free_list_.sort`, as a non-strict order on the
offsets. -/
def Block.le (a b : Block) : Prop := a.offset ≤ b.offset

instance : DecidableRel Block.le := fun a b => inferInstanceAs (Decidable (a.offset ≤ b.offset))

instance : IsTotal Block Block.le := ⟨fun a b => Nat.le_total a.offset b.offset⟩

instance : IsTrans Block Block.le := ⟨fun _ _ _ h1 h2 => Nat.le_trans h1 h2⟩

/-- The call `free_list_.sort(...)` by offset. `std::list::sort` is stable, and so is
insertion sort with the non-strict comparison: blocks of equal offset keep
their order. -/
def sort_by_offset (l : List Block) : List Block := List.insertionSort Block.le l

/-- The merge loop of `do_deallocate` from the position of `it`: `rest` is the
part of the list after `it`. -/
def merge_from (it : Block) : List Block → List Block
  | [] => [it]
  | next :: rest =>
    if uadd it.offset it.size = next.offset then
      merge_from ⟨it.offset, uadd it.size next.size⟩ rest
    else it :: merge_from next rest

/-- The whole merge loop of `do_deallocate`, started at `free_list_.begin()`. -/
def merge_pass : List Block → List Block
  | [] => []
  | it :: rest => merge_from it rest

/-- The function `MemoryResource::do_deallocate`. -/
def do_deallocate (m : MemoryResource) (p bytes _alignment : Nat) :
    Except Error Unit × MemoryResource :=
  if p = 0 then (.ok (), m)
  else
    let offset_pd : Int := (p : Int) - (m.buffer_ : Int)
    if offset_pd < 0 ∨ m.total_size_ ≤ offset_pd.toNat then (.error .runtime_error, m)
    else
      let offset := offset_pd.toNat
      let free1 := m.free_list_ ++ [⟨offset, bytes⟩]
      let allocated := m.allocated_list_.erase ⟨offset, bytes⟩
      let free2 := sort_by_offset free1
      (.ok (), { m with free_list_ := merge_pass free2, allocated_list_ := allocated })

/-! ## `Vector<T>` -/

/-- The member function `allocate(n)` of `std::pmr::polymorphic_allocator<T>`
(standard library): it throws `std::bad_array_new_length` when `n` objects of
`sizeof(T)` bytes exceed `SIZE_MAX`, and otherwise asks the memory resource for
`n * sizeof(T)` bytes aligned to `alignof(T)`. -/
def allocator_allocate (sizeof_T alignof_T : Nat) (mr : MemoryResource) (n : Nat) :
    Except Error Nat × MemoryResource :=
  if (W - 1) / sizeof_T < n then (.error .bad_array_new_length, mr)
  else do_allocate mr (n * sizeof_T) alignof_T

/-- The member function `deallocate(p, n)` of
`std::pmr::polymorphic_allocator<T>` (standard library): it returns
`n * sizeof(T)` bytes aligned to `alignof(T)` to the memory resource. -/
def allocator_deallocate (sizeof_T alignof_T : Nat) (mr : MemoryResource) (p n : Nat) :
    Except Error Unit × MemoryResource :=
  do_deallocate mr p ((n * sizeof_T) % W) alignof_T

/-- The data members of `Vector<T>`: `data_` (0 is `nullptr`), `size_` and
`capacity_`, together with the objects alive in the storage block,
`data_[0]`, `data_[1]`, ... in index order. The allocator `alloc_` is bound to
the memory resource that the member functions take and return. -/
structure Vector (T : Type) where
  data_ : Nat
  size_ : Nat
  capacity_ : Nat
  objects : List T
  deriving DecidableEq, Repr

/-- The constructor `Vector(mr)`. -/
def Vector.create (T : Type) : Vector T :=
  { data_ := 0, size_ := 0, capacity_ := 0, objects := [] }

/-- The function `Vector::size`. -/
def Vector.size {T : Type} (v : Vector T) : Nat := v.size_

/-- The function `Vector::capacity`. -/
def Vector.capacity {T : Type} (v : Vector T) : Nat := v.capacity_

/-- The function `Vector::empty`. -/
def Vector.empty {T : Type} (v : Vector T) : Bool := decide (v.size_ = 0)

/-- The function `Vector::reserve`, for an element type that keeps no memory outside
its objects (`int`, `Pair`, `Counter`), so that moving and destroying an element
makes no call on the arena; `Aware.reserve` is the function for any element
type. The loop moves the `size_` live objects to the new block in index order
and destroys them in the old block; then the old block is returned and the new
one adopted. When `allocate` throws, nothing has been done. -/
def Vector.reserve {T : Type} (sizeof_T alignof_T : Nat) (mr : MemoryResource) (v : Vector T)
    (new_cap : Nat) : Except Error Unit × MemoryResource × Vector T :=
  if new_cap ≤ v.capacity_ then (.ok (), mr, v)
  else
    match allocator_allocate sizeof_T alignof_T mr new_cap with
    | (.error e, mr1) => (.error e, mr1, v)
    | (.ok new_data, mr1) =>
      let moved := v.objects.take v.size_
      if v.data_ ≠ 0 then
        match allocator_deallocate sizeof_T alignof_T mr1 v.data_ v.capacity_ with
        | (.error e, mr2) => (.error e, mr2, { v with objects := v.objects.drop v.size_ })
        | (.ok _, mr2) =>
          (.ok (), mr2, { v with data_ := new_data, capacity_ := new_cap, objects := moved })
      else (.ok (), mr1, { v with data_ := new_data, capacity_ := new_cap, objects := moved })

/-- The function `Vector::push_back` (both overloads), for an element type that keeps
no memory outside its objects and an argument `value` that is an object outside
the storage of the `Vector`, so that it is still alive after the growth;
`Aware.push_back` is the function for any element type and for an argument that
refers to an element of the `Vector` itself. Growth when the storage is full,
construction of the value in slot `size_`, increment of `size_`. Constructing
in slot `size_` of a block of `capacity_` slots needs `size_ < capacity_`. -/
def Vector.push_back {T : Type} (sizeof_T alignof_T : Nat) (mr : MemoryResource) (v : Vector T)
    (value : T) : Except Error Unit × MemoryResource × Vector T :=
  match (if v.size_ = v.capacity_ then
      Vector.reserve sizeof_T alignof_T mr v
        (if v.capacity_ ≠ 0 then (v.capacity_ * 2) % W else 1)
    else (.ok (), mr, v)) with
  | (.error e, mr1, v1) => (.error e, mr1, v1)
  | (.ok _, mr1, v1) =>
    if v1.size_ < v1.capacity_ then
      (.ok (), mr1, { v1 with objects := v1.objects ++ [value], size_ := (v1.size_ + 1) % W })
    else (.error .undefined_behaviour, mr1, v1)

/-- The function `Vector::emplace_back`, for an element type that keeps no memory
outside its objects and arguments that do not refer to elements of the `Vector`
itself; `value` is the object `T(args...)` that the call constructs in place. -/
def Vector.emplace_back {T : Type} (sizeof_T alignof_T : Nat) (mr : MemoryResource)
    (v : Vector T) (value : T) : Except Error Unit × MemoryResource × Vector T :=
  match (if v.size_ = v.capacity_ then
      Vector.reserve sizeof_T alignof_T mr v
        (if v.capacity_ ≠ 0 then (v.capacity_ * 2) % W else 1)
    else (.ok (), mr, v)) with
  | (.error e, mr1, v1) => (.error e, mr1, v1)
  | (.ok _, mr1, v1) =>
    if v1.size_ < v1.capacity_ then
      (.ok (), mr1, { v1 with objects := v1.objects ++ [value], size_ := (v1.size_ + 1) % W })
    else (.error .undefined_behaviour, mr1, v1)

/-- The function `Vector::clear` as it changes the `Vector`: the objects in the slots
below `size_` are destroyed. What the destructors do to the arena is in
`Aware.clear`. -/
def Vector.clear {T : Type} (v : Vector T) : Vector T :=
  { v with objects := v.objects.drop v.size_, size_ := 0 }

/-- The operator `Vector::operator[]`, with the `assert` enabled. -/
def Vector.index {T : Type} (v : Vector T) (idx : Nat) : Except Error T :=
  if idx < v.size_ then
    match v.objects.get? idx with
    | some x => .ok x
    | none => .error .undefined_behaviour
  else .error .assertion_failure

/-- The objects visited by an iteration from `begin()` to `end()`: the slots
from `data_` up to `data_ + size_`, in order. -/
def Vector.iterate {T : Type} (v : Vector T) : List T := v.objects.take v.size_

/-- The destructor `~Vector`, for an element type whose destructor makes no call
on the arena: `clear()`, then the storage block, if any, is returned to the
allocator. -/
def Vector.destroy {T : Type} (sizeof_T alignof_T : Nat) (mr : MemoryResource) (v : Vector T) :
    Except Error Unit × MemoryResource × Vector T :=
  if v.clear.data_ ≠ 0 then
    match allocator_deallocate sizeof_T alignof_T mr v.clear.data_ v.clear.capacity_ with
    | (r, mr1) => (r, mr1, v.clear)
  else (.ok (), mr, v.clear)

/-- One insertion at the end of a `Vector`. -/
inductive Insertion (T : Type) where
  | push_back (value : T)
  | emplace_back (value : T)

/-- A sequence of `push_back` / `emplace_back` calls made one after the other;
it stops at the first call that fails. -/
def Vector.insert_all {T : Type} (sizeof_T alignof_T : Nat) :
    MemoryResource → Vector T → List (Insertion T) → Except Error Unit × MemoryResource × Vector T
  | mr, v, [] => (.ok (), mr, v)
  | mr, v, .push_back value :: rest =>
    match Vector.push_back sizeof_T alignof_T mr v value with
    | (.error e, mr1, v1) => (.error e, mr1, v1)
    | (.ok _, mr1, v1) => Vector.insert_all sizeof_T alignof_T mr1 v1 rest
  | mr, v, .emplace_back value :: rest =>
    match Vector.emplace_back sizeof_T alignof_T mr v value with
    | (.error e, mr1, v1) => (.error e, mr1, v1)
    | (.ok _, mr1, v1) => Vector.insert_all sizeof_T alignof_T mr1 v1 rest

/-- The number `c` is the smallest power of two that is at least `k`. -/
def smallest_pow2_ge (c k : Nat) : Prop :=
  (∃ j, c = 2 ^ j) ∧ k ≤ c ∧ ∀ j, k ≤ 2 ^ j → c ≤ 2 ^ j

/-! ## Vocabulary of the properties -/

/-- The alignments of valid use: the powers of two that are `std::size_t`
values. -/
def is_pow2 (a : Nat) : Prop := ∃ k, k < 64 ∧ a = 2 ^ k

instance : DecidablePred is_pow2 := fun a =>
  inferInstanceAs (Decidable (∃ k, k < 64 ∧ a = 2 ^ k))

/-- Any request a caller can make: a power-of-two alignment and any
`std::size_t` size. -/
def any_request (bytes alignment : Nat) : Prop := is_pow2 alignment ∧ bytes < W

/-- A request whose size and alignment together stay within the range of
`std::size_t`. -/
def bounded_request (bytes alignment : Nat) : Prop := is_pow2 alignment ∧ bytes + alignment ≤ W

/-- A bounded request of positive size. -/
def positive_request (bytes alignment : Nat) : Prop :=
  is_pow2 alignment ∧ 0 < bytes ∧ bytes + alignment ≤ W

/-- The states of an arena built by `MemoryResource(total)` at address
`buffer` that are reachable through matched calls, together with the
`(address, size)` pairs handed out and not yet returned. Every `allocate`
request satisfies `req`; every `deallocate` returns a pair that is still
outstanding and takes it out of the outstanding pairs (whose order does not
matter). A call that throws changes neither the arena nor the outstanding
pairs, so it needs no rule. -/
inductive Matched (req : Nat → Nat → Prop) (buffer total : Nat) :
    MemoryResource → List (Nat × Nat) → Prop
  | fresh : 0 < buffer → total < W →
      Matched req buffer total (MemoryResource.create buffer total) []
  | allocate {m : MemoryResource} {out : List (Nat × Nat)} (bytes alignment p : Nat) :
      Matched req buffer total m out → req bytes alignment →
      (do_allocate m bytes alignment).1 = .ok p →
      Matched req buffer total (do_allocate m bytes alignment).2 ((p, bytes) :: out)
  | deallocate {m : MemoryResource} {out rest : List (Nat × Nat)} (p bytes alignment : Nat) :
      Matched req buffer total m out → out.Perm ((p, bytes) :: rest) →
      (do_deallocate m p bytes alignment).1 = .ok () →
      Matched req buffer total (do_deallocate m p bytes alignment).2 rest

/-- The alignment arithmetic as the specification writes it, over the natural
numbers: `x` if `x mod a = 0`, else `x + (a - x mod a)`. -/
def spec_align_up (x a : Nat) : Nat := if x % a = 0 then x else x + (a - x % a)

/-- The fit condition as the specification writes it, over the natural
numbers: the padding up to the aligned start plus the size is at most the size
of the block. -/
def spec_fits (size alignment : Nat) (b : Block) : Prop :=
  (spec_align_up b.offset alignment - b.offset) + size ≤ b.size

instance (size alignment : Nat) : DecidablePred (spec_fits size alignment) := fun b =>
  inferInstanceAs (Decidable ((spec_align_up b.offset alignment - b.offset) + size ≤ b.size))

/-- Byte `x` of the buffer belongs to the range of block `b`. -/
def Block.has (b : Block) (x : Nat) : Prop := b.offset ≤ x ∧ x < b.offset + b.size

instance (b : Block) : DecidablePred b.has := fun x =>
  inferInstanceAs (Decidable (b.offset ≤ x ∧ x < b.offset + b.size))

/-- Two blocks overlap when their ranges share a byte. -/
def Block.overlaps (a b : Block) : Prop :=
  max a.offset b.offset < min (a.offset + a.size) (b.offset + b.size)

instance : DecidableRel Block.overlaps := fun a b =>
  inferInstanceAs (Decidable (max a.offset b.offset < min (a.offset + a.size) (b.offset + b.size)))

/-- Block `b` lies inside `[0, total)`. -/
def Block.inside (b : Block) (total : Nat) : Prop := b.offset + b.size ≤ total

instance (b : Block) : DecidablePred b.inside := fun total =>
  inferInstanceAs (Decidable (b.offset + b.size ≤ total))

/-- The number of blocks of `l` whose range holds byte `x`. -/
def cover (l : List Block) (x : Nat) : Nat := l.countP (fun b => decide (b.has x))

/-- The sum of the sizes of the blocks of a list. -/
def total_bytes (l : List Block) : Nat := (l.map Block.size).sum

/-- The bookkeeping invariant of the arena: the blocks of both lists lie in
`[0, total_size_)`, every byte of the buffer is in exactly one block, and the
block sizes add up to `total_size_`. -/
structure Inv (m : MemoryResource) : Prop where
  total_lt : m.total_size_ < W
  inside : ∀ b ∈ m.free_list_ ++ m.allocated_list_, b.inside m.total_size_
  partition : ∀ x, x < m.total_size_ → cover m.free_list_ x + cover m.allocated_list_ x = 1
  bytes : total_bytes m.free_list_ + total_bytes m.allocated_list_ = m.total_size_

/-- No block of either list is empty. -/
def Positive (m : MemoryResource) : Prop :=
  ∀ b ∈ m.free_list_ ++ m.allocated_list_, 0 < b.size

/-- Strictly separated blocks in increasing order: every block ends before the
next one starts, with at least one byte between them. -/
def Gapped (l : List Block) : Prop := l.Pairwise (fun b c => b.offset + b.size < c.offset)

/-- No two distinct blocks of the list are adjacent: `offset_i + size_i`
is never `offset_j` for two different positions `i`, `j`. -/
def no_adjacent (l : List Block) : Prop :=
  ∀ i j : Fin l.length, i ≠ j → (l.get i).offset + (l.get i).size ≠ (l.get j).offset

instance (l : List Block) : Decidable (no_adjacent l) :=
  inferInstanceAs (Decidable (∀ i j : Fin l.length, i ≠ j →
    (l.get i).offset + (l.get i).size ≠ (l.get j).offset))

/-- The calls made by the test `AllocateMultipleAndDeallocateMergesBlocks`
after its two allocations: `deallocate(p1, s1, al1)`, `deallocate(p2, s2, al2)`
and then `allocate(bytes, a)`. The outcome is the address returned by the
`allocate`, or the first exception thrown. -/
def free_both_then_allocate (m : MemoryResource) (p1 s1 al1 p2 s2 al2 bytes a : Nat) :
    Except Error Nat :=
  match (do_deallocate m p1 s1 al1).1 with
  | .error e => .error e
  | .ok _ =>
    match (do_deallocate (do_deallocate m p1 s1 al1).2 p2 s2 al2).1 with
    | .error e => .error e
    | .ok _ =>
      (do_allocate (do_deallocate (do_deallocate m p1 s1 al1).2 p2 s2 al2).2 bytes a).1

/-- A sequence of `deallocate(p, bytes, alignment)` calls made one after the
other; it stops at the first call that throws. -/
def deallocate_all : MemoryResource → List (Nat × Nat × Nat) → Except Error Unit × MemoryResource
  | m, [] => (.ok (), m)
  | m, (p, bytes, al) :: rest =>
    match do_deallocate m p bytes al with
    | (.error e, m1) => (.error e, m1)
    | (.ok _, m1) => deallocate_all m1 rest

/-- The state of a `Vector` after `n` insertions on an empty one: its size is
`n`, and its capacity is 0 when `n` is 0 and otherwise a power of two that is at
least `n` and less than `2 * n`. -/
def Vector.grown {T : Type} (v : Vector T) (n : Nat) : Prop :=
  v.size_ = n ∧ v.capacity_ < W ∧
    ((n = 0 ∧ v.capacity_ = 0) ∨ (0 < n ∧ ∃ j, v.capacity_ = 2 ^ j ∧ n ≤ 2 ^ j ∧ 2 ^ j < 2 * n))

/-- The value that an insertion puts at the end of the `Vector`. -/
def Insertion.value {T : Type} : Insertion T → T
  | .push_back value => value
  | .emplace_back value => value

/-- One call of a member function that changes a `Vector`. -/
inductive Call (T : Type) where
  | push_back (value : T)
  | emplace_back (value : T)
  | reserve (n : Nat)
  | clear

/-- The effect of one call on the arena and on the `Vector`, for an element type
that keeps no memory outside its objects (`int`, `Pair`, `Counter`): the
destructors that `clear` runs make no call on the arena, and `clear` itself
calls neither `allocate` nor `deallocate`, so it leaves the arena as it is. -/
def Vector.call {T : Type} (sizeof_T alignof_T : Nat) (mr : MemoryResource) (v : Vector T) :
    Call T → Except Error Unit × MemoryResource × Vector T
  | .push_back value => Vector.push_back sizeof_T alignof_T mr v value
  | .emplace_back value => Vector.emplace_back sizeof_T alignof_T mr v value
  | .reserve n => Vector.reserve sizeof_T alignof_T mr v n
  | .clear => (.ok (), mr, v.clear)

/-- A sequence of calls made one after the other on a `Vector`; it stops at the
first call that fails. -/
def Vector.call_all {T : Type} (sizeof_T alignof_T : Nat) :
    MemoryResource → Vector T → List (Call T) → Except Error Unit × MemoryResource × Vector T
  | mr, v, [] => (.ok (), mr, v)
  | mr, v, c :: rest =>
    match Vector.call sizeof_T alignof_T mr v c with
    | (.error e, mr1, v1) => (.error e, mr1, v1)
    | (.ok _, mr1, v1) => Vector.call_all sizeof_T alignof_T mr1 v1 rest

/-- The link between a `Vector` and the arena it is the only user of: the
arena is in a state reached by matched calls with requests of positive size
that do not wrap, and the blocks handed out and not yet returned are none when
`data_` is null and otherwise the one storage block, `capacity_ * sizeof(T)`
bytes at `data_`. -/
def Vector.owns {T : Type} (sizeof_T buffer total : Nat) (mr : MemoryResource) (v : Vector T) :
    Prop :=
  (v.data_ = 0 ∧ Matched positive_request buffer total mr []) ∨
  (v.data_ ≠ 0 ∧ v.capacity_ * sizeof_T < W ∧
    Matched positive_request buffer total mr [(v.data_, v.capacity_ * sizeof_T)])

/-! ## Elements that use the arena, arguments that refer to elements -/

/-- What `Vector<T>` asks of its element type `T`, as effects on the arena that
`alloc_` is bound to. The allocator constructs by uses-allocator construction,
so an element that keeps memory outside itself (a `std::pmr::string` too long
for its in-place buffer) takes it from the arena of the `Vector` and returns it
there when it is destroyed.
* `copy mr x` is `alloc_.construct(p, x)`, the construction of a new element
  from the object `x`: the new object;
* `relocate mr x` is one round of the loop of `reserve`,
  `alloc_.construct(&new_data[i], std::move_if_noexcept(data_[i]))` followed by
  `alloc_.destroy(&data_[i])`, for a type whose move constructor is `noexcept`:
  the object left in the new block;
* `destroy mr x` is `alloc_.destroy(p)`, the destructor of the element.
A move constructor and a destructor are `noexcept`: an error of `relocate` or of
`destroy` stands for an exception that ends the program there. -/
structure Element (T : Type) where
  copy : MemoryResource → T → Except Error T × MemoryResource
  relocate : MemoryResource → T → Except Error T × MemoryResource
  destroy : MemoryResource → T → Except Error Unit × MemoryResource

/-- An element type that keeps no memory outside its objects, such as `int`,
`Pair` or `Counter`: constructing, moving and destroying one makes no call on
the arena. -/
def Element.plain (T : Type) : Element T :=
  { copy := fun mr x => (.ok x, mr),
    relocate := fun mr x => (.ok x, mr),
    destroy := fun mr _ => (.ok (), mr) }

/-- An object of type `std::pmr::string` whose allocator is bound to the arena
(libstdc++: 40 bytes, alignment 8, up to 15 characters kept in place): its
characters and, when they are kept outside the object, the block
`(address, bytes)` that holds them. -/
structure PmrString where
  text : List Char
  block : Option (Nat × Nat)
  deriving DecidableEq, Repr

/-- The element type `std::pmr::string` (libstdc++). A copy keeps up to 15
characters in place and otherwise allocates `length + 1` bytes with alignment 1;
a move between two objects with the same allocator hands the block over and
leaves an empty string, whose destructor returns nothing; the destructor
returns the block, if there is one. -/
def Element.pmr_string : Element PmrString :=
  { copy := fun mr x =>
      if x.text.length ≤ 15 then (.ok { text := x.text, block := none }, mr)
      else
        match do_allocate mr (x.text.length + 1) 1 with
        | (.error e, mr1) => (.error e, mr1)
        | (.ok p, mr1) => (.ok { text := x.text, block := some (p, x.text.length + 1) }, mr1),
    relocate := fun mr x => (.ok x, mr),
    destroy := fun mr x =>
      match x.block with
      | none => (.ok (), mr)
      | some (p, bytes) => do_deallocate mr p bytes 1 }

/-- The calls `alloc_.destroy(&data_[i])` made one after the other on the given
objects, in index order, one call for each object. -/
def destroy_all {T : Type} (E : Element T) :
    MemoryResource → List T → Except Error Unit × MemoryResource
  | mr, [] => (.ok (), mr)
  | mr, x :: rest =>
    match E.destroy mr x with
    | (.error e, mr1) => (.error e, mr1)
    | (.ok _, mr1) => destroy_all E mr1 rest

/-- The loop of `reserve` over the given objects, in index order: each is
moved to the new block and destroyed in the old one. The result lists the
objects of the new block. -/
def relocate_all {T : Type} (E : Element T) :
    MemoryResource → List T → Except Error (List T) × MemoryResource
  | mr, [] => (.ok [], mr)
  | mr, x :: rest =>
    match E.relocate mr x with
    | (.error e, mr1) => (.error e, mr1)
    | (.ok y, mr1) =>
      match relocate_all E mr1 rest with
      | (.error e, mr2) => (.error e, mr2)
      | (.ok ys, mr2) => (.ok (y :: ys), mr2)

/-- The function `Vector::reserve` for an element type `E`: the new block is
allocated, the loop moves the `size_` live objects to it in index order and
destroys them in the old block, then the old block is returned and the new one
adopted. When `allocate` throws, nothing has been done. -/
def Aware.reserve {T : Type} (E : Element T) (sizeof_T alignof_T : Nat) (mr : MemoryResource)
    (v : Vector T) (new_cap : Nat) : Except Error Unit × MemoryResource × Vector T :=
  if new_cap ≤ v.capacity_ then (.ok (), mr, v)
  else
    match allocator_allocate sizeof_T alignof_T mr new_cap with
    | (.error e, mr1) => (.error e, mr1, v)
    | (.ok new_data, mr1) =>
      match relocate_all E mr1 (v.objects.take v.size_) with
      | (.error e, mr2) => (.error e, mr2, v)
      | (.ok moved, mr2) =>
        if v.data_ ≠ 0 then
          match allocator_deallocate sizeof_T alignof_T mr2 v.data_ v.capacity_ with
          | (.error e, mr3) => (.error e, mr3, { v with objects := v.objects.drop v.size_ })
          | (.ok _, mr3) =>
            (.ok (), mr3, { v with data_ := new_data, capacity_ := new_cap, objects := moved })
        else (.ok (), mr2, { v with data_ := new_data, capacity_ := new_cap, objects := moved })

/-- The capacity that `push_back` asks `reserve` for when the storage is full:
`capacity_ ? capacity_ * 2 : 1`. -/
def Aware.grown_capacity {T : Type} (v : Vector T) : Nat :=
  if v.capacity_ ≠ 0 then (v.capacity_ * 2) % W else 1

/-- The argument of `push_back(const T& value)`: a reference to an object that
is not an element of the `Vector`, or the reference `vec[i]` to the element in
slot `i` of the `Vector` itself. -/
inductive Arg (T : Type) where
  | object (x : T)
  | element (i : Nat)
  deriving DecidableEq, Repr

/-- The last two statements of `push_back`,
`alloc_.construct(&data_[size_], value); ++size_;`, where `value` is `some x`
when the reference still refers to the object `x`, and `none` when the object
it referred to has been destroyed and its storage returned: C++ gives the read
of such a reference no meaning. Constructing in slot `size_` of a block of
`capacity_` slots needs `size_ < capacity_`. -/
def Aware.construct_at_end {T : Type} (E : Element T) (mr : MemoryResource) (v : Vector T)
    (value : Option T) : Except Error Unit × MemoryResource × Vector T :=
  if v.size_ < v.capacity_ then
    match value with
    | none => (.error .undefined_behaviour, mr, v)
    | some x =>
      match E.copy mr x with
      | (.error e, mr1) => (.error e, mr1, v)
      | (.ok y, mr1) =>
        (.ok (), mr1, { v with objects := v.objects ++ [y], size_ := (v.size_ + 1) % W })
  else (.error .undefined_behaviour, mr, v)

/-- The function `Vector::push_back(const T& value)` for an element type `E`. The
argument `vec[i]` is evaluated first, by `operator[]`. The reference is read
only after the growth: unless `reserve` had nothing to do, it has moved the
elements to a new block, and the element that `vec[i]` referred to has been
destroyed and its block returned. The overload `push_back(T&& value)` has the
same statements with `std::move(value)`, and for an object that is not an
element of the `Vector` differs only in the constructor that `alloc_.construct`
calls. -/
def Aware.push_back {T : Type} (E : Element T) (sizeof_T alignof_T : Nat) (mr : MemoryResource)
    (v : Vector T) : Arg T → Except Error Unit × MemoryResource × Vector T
  | .object x =>
    if v.size_ = v.capacity_ then
      match Aware.reserve E sizeof_T alignof_T mr v (Aware.grown_capacity v) with
      | (.error e, mr1, v1) => (.error e, mr1, v1)
      | (.ok _, mr1, v1) => Aware.construct_at_end E mr1 v1 (some x)
    else Aware.construct_at_end E mr v (some x)
  | .element i =>
    match v.index i with
    | .error e => (.error e, mr, v)
    | .ok x =>
      if v.size_ = v.capacity_ then
        match Aware.reserve E sizeof_T alignof_T mr v (Aware.grown_capacity v) with
        | (.error e, mr1, v1) => (.error e, mr1, v1)
        | (.ok _, mr1, v1) =>
          Aware.construct_at_end E mr1 v1
            (if Aware.grown_capacity v ≤ v.capacity_ then some x else none)
      else Aware.construct_at_end E mr v (some x)

/-- A sequence of `push_back` calls made one after the other; it stops at the
first call that fails. -/
def Aware.insert_all {T : Type} (E : Element T) (sizeof_T alignof_T : Nat) :
    MemoryResource → Vector T → List (Arg T) → Except Error Unit × MemoryResource × Vector T
  | mr, v, [] => (.ok (), mr, v)
  | mr, v, a :: rest =>
    match Aware.push_back E sizeof_T alignof_T mr v a with
    | (.error e, mr1, v1) => (.error e, mr1, v1)
    | (.ok _, mr1, v1) => Aware.insert_all E sizeof_T alignof_T mr1 v1 rest

/-- The function `Vector::clear` for an element type `E`: the destructors of the `size_`
live objects run in index order, then `size_` is set to 0. The function itself
calls neither `allocate` nor `deallocate`. -/
def Aware.clear {T : Type} (E : Element T) (mr : MemoryResource) (v : Vector T) :
    Except Error Unit × MemoryResource × Vector T :=
  match destroy_all E mr (v.objects.take v.size_) with
  | (.error e, mr1) => (.error e, mr1, v)
  | (.ok _, mr1) => (.ok (), mr1, { v with objects := v.objects.drop v.size_, size_ := 0 })

/-! ## Arithmetic of `std::size_t` -/

theorem uadd_eq {a b : Nat} (h : a + b < W) : uadd a b = a + b := Nat.mod_eq_of_lt h

theorem usub_eq {a b : Nat} (hb : b ≤ a) (ha : a < W) : usub a b = a - b := by
  unfold usub
  rw [show a + W - b = (a - b) + W by omega, Nat.add_mod_right]
  exact Nat.mod_eq_of_lt (by omega)

theorem is_pow2_pos {a : Nat} (h : is_pow2 a) : 0 < a := by
  obtain ⟨k, _, rfl⟩ := h
  exact Nat.pos_pow_of_pos k (by decide)

theorem is_pow2_lt {a : Nat} (h : is_pow2 a) : a < W := by
  obtain ⟨k, hk, rfl⟩ := h
  exact Nat.pow_lt_pow_right (by decide) hk

theorem spec_align_up_ge (x a : Nat) : x ≤ spec_align_up x a := by
  unfold spec_align_up
  split <;> omega

theorem spec_align_up_mod (x : Nat) {a : Nat} (ha : 0 < a) : spec_align_up x a % a = 0 := by
  unfold spec_align_up
  split
  · assumption
  · have h1 : x % a < a := Nat.mod_lt x ha
    have h2 := Nat.mod_add_div x a
    have h3 : x + (a - x % a) = a * (x / a + 1) := by
      rw [Nat.mul_add, Nat.mul_one]; omega
    rw [h3]; exact Nat.mul_mod_right a _

theorem spec_align_up_lt (x : Nat) {a : Nat} (ha : 0 < a) : spec_align_up x a - x < a := by
  unfold spec_align_up
  have h1 : x % a < a := Nat.mod_lt x ha
  split <;> omega

/-- A multiple of the alignment that is at least `x` is at least the aligned
value of `x`. -/
theorem spec_align_up_le {x a y : Nat} (ha : 0 < a) (hxy : x ≤ y) (hy : y % a = 0) :
    spec_align_up x a ≤ y := by
  by_contra hlt
  have hlt : y < spec_align_up x a := Nat.lt_of_not_le hlt
  have h0 := spec_align_up_mod x ha
  have h1 := spec_align_up_lt x ha
  have h2 := spec_align_up_ge x a
  obtain ⟨c, hc⟩ := Nat.dvd_of_mod_eq_zero hy
  obtain ⟨d, hd⟩ := Nat.dvd_of_mod_eq_zero h0
  rw [hc, hd] at hlt
  have hcd : c < d := Nat.lt_of_mul_lt_mul_left hlt
  have : a * (c + 1) ≤ a * d := Nat.mul_le_mul_left a hcd
  rw [Nat.mul_add, Nat.mul_one] at this
  omega

/-- The machine `align_up` is the specification's value reduced modulo `W`. -/
theorem align_up_eq {x a : Nat} (hx : x < W) (ha : 0 < a) (haW : a < W) :
    align_up x a = spec_align_up x a % W := by
  unfold align_up spec_align_up
  have h1 : x % a < a := Nat.mod_lt x ha
  by_cases h : x % a = 0
  · simp [h, Nat.mod_eq_of_lt hx]
  · simp only [h, if_false]
    rw [usub_eq (Nat.le_of_lt h1) haW]
    rfl

/-- What the machine arithmetic of `find_fit` and `do_allocate` computes on a
block that fits in the sense of the specification, when nothing wraps. -/
theorem fit_arith {size a : Nat} {it : Block} (hit : it.offset + it.size < W) (ha : 0 < a)
    (haW : a < W) (h : spec_fits size a it) :
    align_up it.offset a = spec_align_up it.offset a ∧
    usub (spec_align_up it.offset a) it.offset = spec_align_up it.offset a - it.offset ∧
    uadd (spec_align_up it.offset a - it.offset) size
      = spec_align_up it.offset a - it.offset + size ∧
    uadd (spec_align_up it.offset a) size = spec_align_up it.offset a + size ∧
    usub it.size (spec_align_up it.offset a - it.offset + size)
      = it.size - (spec_align_up it.offset a - it.offset + size) := by
  have h1 := spec_align_up_ge it.offset a
  have h2 := spec_align_up_lt it.offset ha
  unfold spec_fits at h
  have hr : spec_align_up it.offset a < W := by omega
  refine ⟨?_, ?_, ?_, ?_, ?_⟩
  · rw [align_up_eq (by omega) ha haW, Nat.mod_eq_of_lt hr]
  · exact usub_eq h1 hr
  · exact uadd_eq (by omega)
  · exact uadd_eq (by omega)
  · exact usub_eq h (by omega)

/-- A block that fits in the sense of the specification passes the test of
`find_fit`. -/
theorem fit_test_of_spec_fits {size a : Nat} {it : Block} (hit : it.offset + it.size < W)
    (ha : 0 < a) (haW : a < W) (h : spec_fits size a it) : fit_test size a it = true := by
  have h1 := spec_align_up_ge it.offset a
  obtain ⟨e1, e2, e3, _, _⟩ := fit_arith hit ha haW h
  unfold fit_test
  simp only
  rw [e1, if_neg (by omega), e2, e3]
  exact decide_eq_true h

/-- Without wrap-around the test of `find_fit` is the fit condition of the
specification. -/
theorem fit_test_iff {size a : Nat} {it : Block} (hit : it.offset + it.size < W) (ha : 0 < a)
    (haW : a < W) (hs : size + a ≤ W) :
    fit_test size a it = true ↔ spec_fits size a it := by
  have h1 := spec_align_up_ge it.offset a
  have h2 := spec_align_up_lt it.offset ha
  constructor
  · intro h
    unfold fit_test at h
    simp only at h
    rw [align_up_eq (by omega) ha haW] at h
    by_cases hr : spec_align_up it.offset a < W
    · rw [Nat.mod_eq_of_lt hr] at h
      rw [if_neg (by omega), usub_eq h1 hr, uadd_eq (by omega)] at h
      exact of_decide_eq_true h
    · exfalso
      have h3 : spec_align_up it.offset a % W = spec_align_up it.offset a - W := by
        rw [Nat.mod_eq_sub_mod (by omega)]
        exact Nat.mod_eq_of_lt (by omega)
      rw [h3, if_pos (by omega)] at h
      exact Bool.false_ne_true h
  · exact fit_test_of_spec_fits hit ha haW

/-! ## `find_fit` is a first-fit search -/

theorem find_fit_none {size a : Nat} {l : List Block} :
    find_fit size a l = none ↔ ∀ b ∈ l, fit_test size a b = false := by
  induction l with
  | nil => simp [find_fit]
  | cons b rest ih =>
    unfold find_fit
    by_cases h : fit_test size a b = true
    · simp [h]
    · simp [h, ih]

theorem find_fit_some {size a : Nat} {l : List Block} {i : Nat} {it : Block}
    (h : find_fit size a l = some (i, it)) :
    ∃ pre post, l = pre ++ it :: post ∧ i = pre.length ∧
      (∀ b ∈ pre, fit_test size a b = false) ∧ fit_test size a it = true := by
  induction l generalizing i with
  | nil => simp [find_fit] at h
  | cons b rest ih =>
    unfold find_fit at h
    by_cases hb : fit_test size a b = true
    · rw [if_pos hb] at h
      injection h with h
      injection h with h1 h2
      subst h1; subst h2
      exact ⟨[], rest, rfl, rfl, by simp, hb⟩
    · rw [if_neg hb] at h
      cases hr : find_fit size a rest with
      | none => rw [hr] at h; simp at h
      | some r =>
        obtain ⟨j, jt⟩ := r
        rw [hr] at h
        simp only [Option.map_some', Option.some.injEq, Prod.mk.injEq] at h
        obtain ⟨h1, h2⟩ := h
        subst h1; subst h2
        obtain ⟨pre, post, e, el, hp, hf⟩ := ih hr
        refine ⟨b :: pre, post, by rw [e]; rfl, by simp [el], ?_, hf⟩
        intro c hc
        rcases List.mem_cons.mp hc with rfl | hc
        · simpa using hb
        · exact hp c hc

theorem find_fit_of_fits {size a : Nat} {l : List Block} {b : Block} (hb : b ∈ l)
    (h : fit_test size a b = true) : ∃ r, find_fit size a l = some r := by
  cases hr : find_fit size a l with
  | some r => exact ⟨r, rfl⟩
  | none =>
    have := find_fit_none.mp hr b hb
    rw [h] at this
    exact absurd this (by decide)

theorem eraseIdx_middle (pre post : List Block) (it : Block) :
    (pre ++ it :: post).eraseIdx pre.length = pre ++ post := by
  rw [List.eraseIdx_append_of_length_le (Nat.le_refl _)]
  simp

/-! ## Unfolding `do_allocate` -/

/-- Appending a block to a list when a condition holds (`if (c) emplace_back`). -/
theorem mem_push_if {c : Prop} [Decidable c] {l : List Block} {blk b : Block}
    (h : b ∈ (if c then l ++ [blk] else l)) : b ∈ l ∨ (c ∧ b = blk) := by
  split at h
  · rcases List.mem_append.mp h with h | h
    · exact Or.inl h
    · exact Or.inr ⟨by assumption, by simpa using h⟩
  · exact Or.inl h

theorem do_allocate_none {m : MemoryResource} {bytes a : Nat}
    (h : find_fit bytes a m.free_list_ = none) :
    do_allocate m bytes a = (.error .bad_alloc, m) := by
  simp [do_allocate, h]

theorem do_allocate_some {m : MemoryResource} {bytes a i : Nat} {it : Block}
    (h : find_fit bytes a m.free_list_ = some (i, it)) :
    do_allocate m bytes a =
      (.ok (m.buffer_ + align_up it.offset a),
        { m with
          free_list_ :=
            (if 0 < usub it.size (uadd (usub (align_up it.offset a) it.offset) bytes) then
              (if 0 < usub (align_up it.offset a) it.offset then
                m.free_list_.eraseIdx i ++ [⟨it.offset, usub (align_up it.offset a) it.offset⟩]
              else m.free_list_.eraseIdx i) ++
              [⟨uadd (align_up it.offset a) bytes,
                usub it.size (uadd (usub (align_up it.offset a) it.offset) bytes)⟩]
            else
              (if 0 < usub (align_up it.offset a) it.offset then
                m.free_list_.eraseIdx i ++ [⟨it.offset, usub (align_up it.offset a) it.offset⟩]
              else m.free_list_.eraseIdx i)),
          allocated_list_ := m.allocated_list_ ++ [⟨align_up it.offset a, bytes⟩] }) := by
  simp [do_allocate, h]

/-- A failing `do_allocate` throws `std::bad_alloc` and changes nothing. -/
theorem do_allocate_error {m : MemoryResource} {bytes a : Nat} {e : Error}
    (h : (do_allocate m bytes a).1 = .error e) :
    e = .bad_alloc ∧ (do_allocate m bytes a).2 = m ∧ find_fit bytes a m.free_list_ = none := by
  cases hf : find_fit bytes a m.free_list_ with
  | none =>
    rw [do_allocate_none hf] at h ⊢
    simp only [Except.error.injEq] at h
    exact ⟨h.symm, rfl, rfl⟩
  | some r =>
    obtain ⟨i, it⟩ := r
    rw [do_allocate_some hf] at h
    simp at h

/-- The shape of a successful `do_allocate` when no `size_t` operation wraps:
the chosen block `it` is the first block of the free list that fits, it is
taken out of the list, the padding before the aligned start and the remainder
after the allocation go back to the end of the free list when they are not
empty, and the allocated list gains the carved block. -/
theorem do_allocate_ok {m : MemoryResource} {bytes a p : Nat}
    (hfree : ∀ b ∈ m.free_list_, b.offset + b.size < W) (ha : 0 < a) (haW : a < W)
    (hs : bytes + a ≤ W) (hok : (do_allocate m bytes a).1 = .ok p) :
    ∃ pre post it, m.free_list_ = pre ++ it :: post ∧
      (∀ b ∈ pre, ¬ spec_fits bytes a b) ∧ spec_fits bytes a it ∧
      p = m.buffer_ + spec_align_up it.offset a ∧
      (do_allocate m bytes a).2 =
        { m with
          free_list_ :=
            (if 0 < it.size - (spec_align_up it.offset a - it.offset + bytes) then
              (if 0 < spec_align_up it.offset a - it.offset then
                pre ++ post ++ [⟨it.offset, spec_align_up it.offset a - it.offset⟩]
              else pre ++ post) ++
              [⟨spec_align_up it.offset a + bytes,
                it.size - (spec_align_up it.offset a - it.offset + bytes)⟩]
            else
              (if 0 < spec_align_up it.offset a - it.offset then
                pre ++ post ++ [⟨it.offset, spec_align_up it.offset a - it.offset⟩]
              else pre ++ post)),
          allocated_list_ := m.allocated_list_ ++ [⟨spec_align_up it.offset a, bytes⟩] } := by
  cases hf : find_fit bytes a m.free_list_ with
  | none => rw [do_allocate_none hf] at hok; simp at hok
  | some r =>
    obtain ⟨i, it⟩ := r
    obtain ⟨pre, post, e, el, hpre, hit⟩ := find_fit_some hf
    have hmem : it ∈ m.free_list_ := by rw [e]; simp
    have hfit : spec_fits bytes a it := (fit_test_iff (hfree it hmem) ha haW hs).mp hit
    obtain ⟨e1, e2, e3, e4, e5⟩ := fit_arith (hfree it hmem) ha haW hfit
    refine ⟨pre, post, it, e, ?_, hfit, ?_, ?_⟩
    · intro b hb hfb
      have hb2 : b ∈ m.free_list_ := by rw [e]; simp [hb]
      have := (fit_test_iff (hfree b hb2) ha haW hs).mpr hfb
      rw [hpre b hb] at this
      exact absurd this (by decide)
    · rw [do_allocate_some hf, e1] at hok
      simp only [Except.ok.injEq] at hok
      exact hok.symm
    · rw [do_allocate_some hf, e1, e2, e3, e4, e5, el, e, eraseIdx_middle]

/-- First fit when nothing wraps (free blocks that end below `2 ^ 64`, a
request with `bytes + a <= 2 ^ 64`): `do_allocate` throws `std::bad_alloc`
exactly when no free block fits in the sense of the specification, and
otherwise returns the aligned start of the first block of the list that fits,
which is a multiple of the alignment as an offset from `buffer_`. -/
theorem first_fit_bounded {m : MemoryResource} {bytes a : Nat}
    (hfree : ∀ b ∈ m.free_list_, b.offset + b.size < W) (ha : 0 < a) (haW : a < W)
    (hs : bytes + a ≤ W) :
    ((do_allocate m bytes a).1 = .error .bad_alloc ↔
      ∀ b ∈ m.free_list_, ¬ spec_fits bytes a b) ∧
    (∀ p, (do_allocate m bytes a).1 = .ok p →
      ∃ pre it post, m.free_list_ = pre ++ it :: post ∧
        (∀ b ∈ pre, ¬ spec_fits bytes a b) ∧ spec_fits bytes a it ∧
        p = m.buffer_ + spec_align_up it.offset a ∧ (p - m.buffer_) % a = 0) := by
  constructor
  · constructor
    · intro h b hb hfit
      have hnone := (do_allocate_error h).2.2
      have := find_fit_none.mp hnone b hb
      rw [(fit_test_iff (hfree b hb) ha haW hs).mpr hfit] at this
      exact absurd this (by decide)
    · intro h
      have hnone : find_fit bytes a m.free_list_ = none := by
        apply find_fit_none.mpr
        intro b hb
        cases hft : fit_test bytes a b with
        | false => rfl
        | true => exact absurd ((fit_test_iff (hfree b hb) ha haW hs).mp hft) (h b hb)
      rw [do_allocate_none hnone]
  · intro p hok
    obtain ⟨pre, post, it, e, hpre, hfit, hp, _⟩ := do_allocate_ok hfree ha haW hs hok
    refine ⟨pre, it, post, e, hpre, hfit, hp, ?_⟩
    rw [hp, Nat.add_sub_cancel_left]
    exact spec_align_up_mod it.offset ha

/-! ## Byte cover and byte totals of block lists -/

theorem cover_nil (x : Nat) : cover [] x = 0 := rfl

theorem cover_cons (b : Block) (l : List Block) (x : Nat) :
    cover (b :: l) x = cover l x + if b.offset ≤ x ∧ x < b.offset + b.size then 1 else 0 := by
  unfold cover
  rw [List.countP_cons]
  simp [Block.has]

theorem cover_append (l1 l2 : List Block) (x : Nat) :
    cover (l1 ++ l2) x = cover l1 x + cover l2 x := List.countP_append _ l1 l2

theorem cover_perm {l1 l2 : List Block} (h : l1.Perm l2) (x : Nat) : cover l1 x = cover l2 x :=
  List.Perm.countP_eq _ h

theorem cover_push_if (l : List Block) (o s x : Nat) :
    cover (if 0 < s then l ++ [⟨o, s⟩] else l) x
      = cover l x + if o ≤ x ∧ x < o + s then 1 else 0 := by
  by_cases h : 0 < s
  · rw [if_pos h, cover_append, cover_cons, cover_nil]
    simp
  · rw [if_neg h, if_neg (by omega)]
    rfl

theorem cover_pos {l : List Block} {x : Nat} (h : 0 < cover l x) : ∃ b ∈ l, b.has x := by
  unfold cover at h
  obtain ⟨b, hb, hx⟩ := List.countP_pos_iff.mp h
  exact ⟨b, hb, of_decide_eq_true hx⟩

theorem cover_pos_of_mem {l : List Block} {b : Block} {x : Nat} (hb : b ∈ l) (hx : b.has x) :
    0 < cover l x :=
  List.countP_pos_iff.mpr ⟨b, hb, decide_eq_true hx⟩

theorem total_bytes_nil : total_bytes [] = 0 := rfl

theorem total_bytes_cons (b : Block) (l : List Block) :
    total_bytes (b :: l) = b.size + total_bytes l := by
  simp [total_bytes]

theorem total_bytes_append (l1 l2 : List Block) :
    total_bytes (l1 ++ l2) = total_bytes l1 + total_bytes l2 := by
  simp [total_bytes]

theorem total_bytes_perm {l1 l2 : List Block} (h : l1.Perm l2) :
    total_bytes l1 = total_bytes l2 :=
  (h.map Block.size).sum_eq

theorem total_bytes_push_if (l : List Block) (o s : Nat) :
    total_bytes (if 0 < s then l ++ [⟨o, s⟩] else l) = total_bytes l + s := by
  by_cases h : 0 < s
  · rw [if_pos h, total_bytes_append, total_bytes_cons, total_bytes_nil]
    simp
  · rw [if_neg h]
    omega

/-! ## The invariant is kept by `do_allocate` -/

theorem inv_free_lt {m : MemoryResource} (h : Inv m) :
    ∀ b ∈ m.free_list_, b.offset + b.size < W := by
  intro b hb
  have := h.inside b (List.mem_append_left _ hb)
  have := h.total_lt
  unfold Block.inside at *
  omega

theorem inv_create {buffer total : Nat} (h : total < W) :
    Inv (MemoryResource.create buffer total) := by
  refine ⟨h, ?_, ?_, ?_⟩
  · intro b hb
    simp [MemoryResource.create] at hb
    subst hb
    simp [Block.inside, MemoryResource.create]
  · intro x hx
    simp only [MemoryResource.create] at hx ⊢
    rw [cover_cons, cover_nil, if_pos ⟨Nat.zero_le x, by simpa using hx⟩]
  · simp [MemoryResource.create, total_bytes]

theorem inv_allocate {m : MemoryResource} {bytes a p : Nat} (h : Inv m) (ha : 0 < a)
    (haW : a < W) (hs : bytes + a ≤ W) (hok : (do_allocate m bytes a).1 = .ok p) :
    Inv (do_allocate m bytes a).2 := by
  obtain ⟨pre, post, it, e, _, hfit, _, hst⟩ := do_allocate_ok (inv_free_lt h) ha haW hs hok
  have h1 := spec_align_up_ge it.offset a
  have hin := h.inside
  have hpart := h.partition
  have hbytes := h.bytes
  rw [e] at hin hpart hbytes
  have hit : it.offset + it.size ≤ m.total_size_ := hin it (by simp)
  unfold spec_fits at hfit
  rw [hst]
  refine ⟨h.total_lt, ?_, ?_, ?_⟩
  · intro b hb
    simp only at hb
    rcases List.mem_append.mp hb with hb | hb
    · have key : b ∈ pre ++ post ∨ b = ⟨it.offset, spec_align_up it.offset a - it.offset⟩ ∨
          b = ⟨spec_align_up it.offset a + bytes,
            it.size - (spec_align_up it.offset a - it.offset + bytes)⟩ := by
        split at hb
        · rcases List.mem_append.mp hb with hb | hb
          · rcases mem_push_if hb with hb | ⟨_, hb⟩
            · exact Or.inl hb
            · exact Or.inr (Or.inl hb)
          · exact Or.inr (Or.inr (by simpa using hb))
        · rcases mem_push_if hb with hb | ⟨_, hb⟩
          · exact Or.inl hb
          · exact Or.inr (Or.inl hb)
      rcases key with hb | hb | hb
      · apply hin
        rcases List.mem_append.mp hb with hb | hb
        · simp [hb]
        · simp [hb]
      · subst hb
        simp only [Block.inside]
        omega
      · subst hb
        simp only [Block.inside]
        omega
    · rcases List.mem_append.mp hb with hb | hb
      · exact hin b (List.mem_append_right _ hb)
      · have hb : b = ⟨spec_align_up it.offset a, bytes⟩ := by simpa using hb
        subst hb
        simp only [Block.inside]
        omega
  · intro x hx
    have hx2 := hpart x hx
    simp only at hx ⊢
    rw [cover_append, cover_cons] at hx2
    rw [cover_push_if, cover_push_if, cover_append, cover_append, cover_cons, cover_nil]
    simp only
    split_ifs at hx2 ⊢ <;> omega
  · simp only
    rw [total_bytes_append, total_bytes_cons] at hbytes
    rw [total_bytes_push_if, total_bytes_push_if, total_bytes_append, total_bytes_append,
      total_bytes_cons, total_bytes_nil]
    simp only
    omega

/-! ## The sort and the merge loop of `do_deallocate` -/

theorem sort_by_offset_perm (l : List Block) : (sort_by_offset l).Perm l :=
  List.perm_insertionSort _ l

theorem sort_by_offset_sorted (l : List Block) :
    (sort_by_offset l).Pairwise (fun b c => b.offset ≤ c.offset) :=
  List.sorted_insertionSort Block.le l

/-- The merge loop keeps the blocks inside the buffer, the cover of every byte
and the total of the sizes, as long as every block lies inside the buffer (no
`size_t` addition of the loop wraps then). -/
theorem merge_from_keeps {total : Nat} (hW : total < W) (x : Nat) (rest : List Block) :
    ∀ it : Block, (∀ b ∈ it :: rest, b.inside total) →
      (∀ b ∈ merge_from it rest, b.inside total) ∧
      cover (merge_from it rest) x = cover (it :: rest) x ∧
      total_bytes (merge_from it rest) = total_bytes (it :: rest) := by
  induction rest with
  | nil =>
    intro it h
    exact ⟨by simpa [merge_from] using h, rfl, rfl⟩
  | cons next rest ih =>
    intro it h
    have hit : it.offset + it.size ≤ total := h it (by simp)
    have hnext : next.offset + next.size ≤ total := h next (by simp)
    unfold merge_from
    rw [uadd_eq (by omega)]
    by_cases hadj : it.offset + it.size = next.offset
    · rw [if_pos hadj, uadd_eq (by omega)]
      have hm : ∀ b ∈ (⟨it.offset, it.size + next.size⟩ : Block) :: rest, b.inside total := by
        intro b hb
        rcases List.mem_cons.mp hb with rfl | hb
        · simp only [Block.inside]; omega
        · exact h b (by simp [hb])
      obtain ⟨i1, i2, i3⟩ := ih _ hm
      refine ⟨i1, ?_, ?_⟩
      · rw [i2, cover_cons, cover_cons, cover_cons]
        simp only
        split_ifs <;> omega
      · rw [i3, total_bytes_cons, total_bytes_cons, total_bytes_cons]
        simp only
        omega
    · rw [if_neg hadj]
      obtain ⟨i1, i2, i3⟩ := ih next (fun b hb => h b (List.mem_cons_of_mem _ hb))
      refine ⟨?_, ?_, ?_⟩
      · intro b hb
        rcases List.mem_cons.mp hb with rfl | hb
        · exact hit
        · exact i1 b hb
      · rw [cover_cons, i2, cover_cons it]
      · rw [total_bytes_cons, i3, total_bytes_cons it]

theorem merge_pass_keeps {total : Nat} (hW : total < W) (x : Nat) (l : List Block)
    (h : ∀ b ∈ l, b.inside total) :
    (∀ b ∈ merge_pass l, b.inside total) ∧ cover (merge_pass l) x = cover l x ∧
      total_bytes (merge_pass l) = total_bytes l := by
  cases l with
  | nil => exact ⟨by simp [merge_pass], rfl, rfl⟩
  | cons it rest => exact merge_from_keeps hW x rest it h

/-- On blocks of positive size that follow one another without overlap, the
merge loop leaves blocks of positive size separated by gaps. -/
theorem merge_from_gapped {total : Nat} (hW : total < W) (rest : List Block) :
    ∀ it : Block, (it :: rest).Pairwise (fun b c => b.offset + b.size ≤ c.offset) →
      (∀ b ∈ it :: rest, 0 < b.size ∧ b.inside total) →
      Gapped (merge_from it rest) ∧ (∀ b ∈ merge_from it rest, 0 < b.size) ∧
      (∀ b ∈ merge_from it rest, it.offset ≤ b.offset) := by
  induction rest with
  | nil =>
    intro it _ h
    refine ⟨by simp [merge_from, Gapped], ?_, ?_⟩
    · intro b hb
      simp [merge_from] at hb
      subst hb
      exact (h b (by simp)).1
    · intro b hb
      simp [merge_from] at hb
      subst hb
      exact Nat.le_refl _
  | cons next rest ih =>
    intro it hp h
    have hit := h it (by simp)
    have hnext := h next (by simp)
    unfold Block.inside at hit hnext
    obtain ⟨hp1, hp2⟩ := List.pairwise_cons.mp hp
    obtain ⟨hp3, hp4⟩ := List.pairwise_cons.mp hp2
    have hle : it.offset + it.size ≤ next.offset := hp1 next (by simp)
    unfold merge_from
    rw [uadd_eq (by omega)]
    by_cases hadj : it.offset + it.size = next.offset
    · rw [if_pos hadj, uadd_eq (by omega)]
      have hm : ∀ b ∈ (⟨it.offset, it.size + next.size⟩ : Block) :: rest,
          0 < b.size ∧ b.inside total := by
        intro b hb
        rcases List.mem_cons.mp hb with rfl | hb
        · simp only [Block.inside]; omega
        · exact h b (by simp [hb])
      have hpm : ((⟨it.offset, it.size + next.size⟩ : Block) :: rest).Pairwise
          (fun b c => b.offset + b.size ≤ c.offset) := by
        refine List.pairwise_cons.mpr ⟨?_, hp4⟩
        intro c hc
        have := hp3 c hc
        simp only
        omega
      exact ih _ hpm hm
    · rw [if_neg hadj]
      obtain ⟨i1, i2, i3⟩ := ih next hp2 (fun b hb => h b (List.mem_cons_of_mem _ hb))
      refine ⟨?_, ?_, ?_⟩
      · refine List.pairwise_cons.mpr ⟨?_, i1⟩
        intro c hc
        have := i3 c hc
        omega
      · intro b hb
        rcases List.mem_cons.mp hb with rfl | hb
        · exact hit.1
        · exact i2 b hb
      · intro b hb
        rcases List.mem_cons.mp hb with rfl | hb
        · exact Nat.le_refl _
        · have := i3 b hb
          omega

/-- A sorted list of non-empty blocks in which no byte is covered twice is a
list of blocks that follow one another without overlap. -/
theorem sorted_disjoint_ordered {l : List Block}
    (hs : l.Pairwise (fun b c => b.offset ≤ c.offset)) (hpos : ∀ b ∈ l, 0 < b.size)
    (hc : ∀ x, cover l x ≤ 1) : l.Pairwise (fun b c => b.offset + b.size ≤ c.offset) := by
  induction l with
  | nil => exact List.Pairwise.nil
  | cons b rest ih =>
    obtain ⟨h1, h2⟩ := List.pairwise_cons.mp hs
    refine List.pairwise_cons.mpr ⟨?_, ih h2 (fun c hc2 => hpos c (List.mem_cons_of_mem _ hc2)) ?_⟩
    · intro c hcm
      by_contra hlt
      have hbc := h1 c hcm
      have hcp := hpos c (List.mem_cons_of_mem _ hcm)
      have h3 := hc c.offset
      rw [cover_cons, if_pos ⟨hbc, by omega⟩] at h3
      have h4 : 0 < cover rest c.offset :=
        cover_pos_of_mem hcm ⟨Nat.le_refl _, by omega⟩
      omega
    · intro x
      have := hc x
      rw [cover_cons] at this
      omega

/-! ## Unfolding `do_deallocate` -/

/-- A completed `do_deallocate` of a non-null address: the address is inside
the buffer and the lists are updated by the push, the erase, the sort and the
merge loop. -/
theorem do_deallocate_ok {m : MemoryResource} {p bytes al : Nat} (hp : p ≠ 0)
    (hok : (do_deallocate m p bytes al).1 = .ok ()) :
    m.buffer_ ≤ p ∧ p - m.buffer_ < m.total_size_ ∧
    (do_deallocate m p bytes al).2 =
      { m with
        free_list_ := merge_pass (sort_by_offset (m.free_list_ ++ [⟨p - m.buffer_, bytes⟩])),
        allocated_list_ := m.allocated_list_.erase ⟨p - m.buffer_, bytes⟩ } := by
  unfold do_deallocate at hok ⊢
  rw [if_neg hp] at hok ⊢
  simp only at hok ⊢
  by_cases hc : ((p : Int) - (m.buffer_ : Int) < 0 ∨
      m.total_size_ ≤ ((p : Int) - (m.buffer_ : Int)).toNat)
  · rw [if_pos hc] at hok
    simp at hok
  · rw [if_neg hc]
    have e : ((p : Int) - (m.buffer_ : Int)).toNat = p - m.buffer_ := by omega
    rw [e] at hc ⊢
    refine ⟨by omega, by omega, rfl⟩

/-- An address inside the buffer is accepted by `do_deallocate`. -/
theorem do_deallocate_inside {m : MemoryResource} {p bytes al : Nat} (h0 : 0 < m.buffer_)
    (h1 : m.buffer_ ≤ p) (h2 : p < m.buffer_ + m.total_size_) :
    (do_deallocate m p bytes al).1 = .ok () := by
  unfold do_deallocate
  rw [if_neg (by omega)]
  simp only
  rw [if_neg (by omega)]

theorem inv_deallocate {m : MemoryResource} {p bytes al : Nat} (h : Inv m) (hp : p ≠ 0)
    (hmem : (⟨p - m.buffer_, bytes⟩ : Block) ∈ m.allocated_list_)
    (hok : (do_deallocate m p bytes al).1 = .ok ()) :
    Inv (do_deallocate m p bytes al).2 := by
  obtain ⟨_, _, hst⟩ := do_deallocate_ok hp hok
  rw [hst]
  have hperm := List.perm_cons_erase hmem
  have hin : ∀ b ∈ sort_by_offset (m.free_list_ ++ [⟨p - m.buffer_, bytes⟩]),
      b.inside m.total_size_ := by
    intro b hb
    have hb := (sort_by_offset_perm _).subset hb
    rcases List.mem_append.mp hb with hb | hb
    · exact h.inside b (List.mem_append_left _ hb)
    · have hb : b = ⟨p - m.buffer_, bytes⟩ := by simpa using hb
      subst hb
      exact h.inside _ (List.mem_append_right _ hmem)
  refine ⟨h.total_lt, ?_, ?_, ?_⟩
  · intro b hb
    simp only at hb
    rcases List.mem_append.mp hb with hb | hb
    · exact (merge_pass_keeps h.total_lt 0 _ hin).1 b hb
    · exact h.inside b (List.mem_append_right _ (List.mem_of_mem_erase hb))
  · intro x hx
    simp only at hx ⊢
    have h1 := h.partition x hx
    rw [(merge_pass_keeps h.total_lt x _ hin).2.1, cover_perm (sort_by_offset_perm _),
      cover_append, cover_cons, cover_nil]
    rw [cover_perm hperm, cover_cons] at h1
    omega
  · simp only
    have h1 := h.bytes
    rw [(merge_pass_keeps h.total_lt 0 _ hin).2.2, total_bytes_perm (sort_by_offset_perm _),
      total_bytes_append, total_bytes_cons, total_bytes_nil]
    rw [total_bytes_perm hperm, total_bytes_cons] at h1
    omega

/-! ## Matched calls keep the invariant -/

theorem is_pow2_of_bounded {bytes a : Nat} (h : bounded_request bytes a) :
    0 < a ∧ a < W ∧ bytes + a ≤ W :=
  ⟨is_pow2_pos h.1, is_pow2_lt h.1, h.2⟩

/-- The link between the arena and the outstanding pairs of a matched run: the
allocated list holds exactly the blocks handed out and not yet returned. -/
theorem matched_facts {req : Nat → Nat → Prop} {buffer total : Nat}
    (hreq : ∀ bytes a, req bytes a → bounded_request bytes a)
    {m : MemoryResource} {out : List (Nat × Nat)} (h : Matched req buffer total m out) :
    m.buffer_ = buffer ∧ m.total_size_ = total ∧ 0 < buffer ∧ Inv m ∧
    out.Perm (m.allocated_list_.map (fun b => (buffer + b.offset, b.size))) := by
  induction h with
  | fresh hb ht => exact ⟨rfl, rfl, hb, inv_create ht, by simp [MemoryResource.create]⟩
  | @allocate m out bytes a p _ hr hok ih =>
    obtain ⟨e1, e2, hb, hinv, hperm⟩ := ih
    obtain ⟨ha, haW, hs⟩ := is_pow2_of_bounded (hreq _ _ hr)
    obtain ⟨pre, post, it, _, _, _, hp, hst⟩ := do_allocate_ok (inv_free_lt hinv) ha haW hs hok
    refine ⟨?_, ?_, hb, inv_allocate hinv ha haW hs hok, ?_⟩
    · rw [hst]; exact e1
    · rw [hst]; exact e2
    · rw [hst]
      simp only [List.map_append, List.map_cons, List.map_nil]
      rw [hp, e1]
      exact (List.Perm.cons _ hperm).trans (List.perm_append_singleton _ _).symm
  | @deallocate m out rest p bytes al _ hout hok ih =>
    obtain ⟨e1, e2, hb, hinv, hperm⟩ := ih
    have hm2 := hperm.subset (hout.symm.subset (List.mem_cons_self _ _))
    obtain ⟨b, hbm, hbe⟩ := List.mem_map.mp hm2
    simp only [Prod.mk.injEq] at hbe
    have hp : p ≠ 0 := by omega
    have hblk : (⟨p - m.buffer_, bytes⟩ : Block) = b := by
      cases b
      simp only [Block.mk.injEq] at hbe ⊢
      omega
    have hmem2 : (⟨p - m.buffer_, bytes⟩ : Block) ∈ m.allocated_list_ := hblk ▸ hbm
    obtain ⟨_, _, hst⟩ := do_deallocate_ok hp hok
    refine ⟨?_, ?_, hb, inv_deallocate hinv hp hmem2 hok, ?_⟩
    · rw [hst]; exact e1
    · rw [hst]; exact e2
    · rw [hst]
      simp only
      rw [hblk]
      have h1 := (List.perm_cons_erase hbm).map (fun b : Block => (buffer + b.offset, b.size))
      simp only [List.map_cons] at h1
      rw [hbe.1, hbe.2] at h1
      exact (hout.symm.trans (hperm.trans h1)).cons_inv

/-! ## Non-empty blocks and the gaps left by the merge loop -/

theorem inv_cover_le_one {m : MemoryResource} (h : Inv m) (x : Nat) :
    cover m.free_list_ x + cover m.allocated_list_ x ≤ 1 := by
  by_cases hx : x < m.total_size_
  · exact Nat.le_of_eq (h.partition x hx)
  · have h0 : cover (m.free_list_ ++ m.allocated_list_) x = 0 := by
      unfold cover
      rw [List.countP_eq_zero]
      intro b hb hbx
      have h1 := h.inside b hb
      have h2 : b.has x := of_decide_eq_true hbx
      unfold Block.inside at h1
      unfold Block.has at h2
      omega
    rw [cover_append] at h0
    omega

theorem positive_allocate {m : MemoryResource} {bytes a p : Nat} (h : Inv m) (hpos : Positive m)
    (ha : 0 < a) (haW : a < W) (hs : bytes + a ≤ W) (hb : 0 < bytes)
    (hok : (do_allocate m bytes a).1 = .ok p) : Positive (do_allocate m bytes a).2 := by
  obtain ⟨pre, post, it, e, _, _, _, hst⟩ := do_allocate_ok (inv_free_lt h) ha haW hs hok
  rw [hst]
  unfold Positive at hpos ⊢
  rw [e] at hpos
  intro b hb
  simp only at hb
  rcases List.mem_append.mp hb with hb | hb
  · have key : b ∈ pre ++ post ∨ 0 < b.size := by
      split at hb
      · rcases List.mem_append.mp hb with hb | hb
        · rcases mem_push_if hb with hb | ⟨hc, hb⟩
          · exact Or.inl hb
          · exact Or.inr (by rw [hb]; exact hc)
        · have hb := List.mem_singleton.mp hb
          exact Or.inr (by rw [hb]; assumption)
      · rcases mem_push_if hb with hb | ⟨hc, hb⟩
        · exact Or.inl hb
        · exact Or.inr (by rw [hb]; exact hc)
    rcases key with hb | hb
    · apply hpos
      rcases List.mem_append.mp hb with hb | hb
      · simp [hb]
      · simp [hb]
    · exact hb
  · rcases List.mem_append.mp hb with hb | hb
    · exact hpos b (List.mem_append_right _ hb)
    · have hb : b = ⟨spec_align_up it.offset a, bytes⟩ := by simpa using hb
      rw [hb]
      assumption

/-- After a completed matched `do_deallocate` on an arena without empty blocks
the free list is sorted, its blocks are separated by gaps, and no block is
empty. -/
theorem deallocate_gapped {m : MemoryResource} {p bytes al : Nat} (h : Inv m)
    (hpos : Positive m) (hp : p ≠ 0)
    (hmem : (⟨p - m.buffer_, bytes⟩ : Block) ∈ m.allocated_list_)
    (hok : (do_deallocate m p bytes al).1 = .ok ()) :
    Gapped (do_deallocate m p bytes al).2.free_list_ ∧ Positive (do_deallocate m p bytes al).2 := by
  obtain ⟨_, _, hst⟩ := do_deallocate_ok hp hok
  rw [hst]
  simp only
  have hperm := sort_by_offset_perm (m.free_list_ ++ [⟨p - m.buffer_, bytes⟩])
  have hall : ∀ b ∈ sort_by_offset (m.free_list_ ++ [⟨p - m.buffer_, bytes⟩]),
      0 < b.size ∧ b.inside m.total_size_ := by
    intro b hb
    have hb := hperm.subset hb
    rcases List.mem_append.mp hb with hb | hb
    · exact ⟨hpos b (List.mem_append_left _ hb), h.inside b (List.mem_append_left _ hb)⟩
    · have hb : b = ⟨p - m.buffer_, bytes⟩ := by simpa using hb
      subst hb
      exact ⟨hpos _ (List.mem_append_right _ hmem), h.inside _ (List.mem_append_right _ hmem)⟩
  have hcov : ∀ x, cover (sort_by_offset (m.free_list_ ++ [⟨p - m.buffer_, bytes⟩])) x ≤ 1 := by
    intro x
    have h1 := inv_cover_le_one h x
    rw [cover_perm (List.perm_cons_erase hmem), cover_cons] at h1
    rw [cover_perm hperm, cover_append, cover_cons, cover_nil]
    omega
  have hord := sorted_disjoint_ordered (sort_by_offset_sorted _) (fun b hb => (hall b hb).1) hcov
  have hg : Gapped (merge_pass (sort_by_offset (m.free_list_ ++ [⟨p - m.buffer_, bytes⟩]))) ∧
      ∀ b ∈ merge_pass (sort_by_offset (m.free_list_ ++ [⟨p - m.buffer_, bytes⟩])),
        0 < b.size := by
    cases hl : sort_by_offset (m.free_list_ ++ [⟨p - m.buffer_, bytes⟩]) with
    | nil => exact ⟨List.Pairwise.nil, by simp [merge_pass]⟩
    | cons it rest =>
      rw [hl] at hord hall
      obtain ⟨g1, g2, _⟩ := merge_from_gapped h.total_lt rest it hord hall
      exact ⟨g1, g2⟩
  refine ⟨hg.1, ?_⟩
  intro b hb
  simp only at hb
  rcases List.mem_append.mp hb with hb | hb
  · exact hg.2 b hb
  · exact hpos b (List.mem_append_right _ (List.mem_of_mem_erase hb))

/-- In a gapped list of non-empty blocks two neighbouring covered bytes lie in
the same block. -/
theorem gapped_same_block {l : List Block} (hg : Gapped l) {b c : Block} (hb : b ∈ l)
    (hc : c ∈ l) {x : Nat} (hbx : b.has x) (hcx : c.has (x + 1)) : b = c := by
  by_contra hne
  have hsym : Symmetric (fun b c : Block =>
      b.offset + b.size < c.offset ∨ c.offset + c.size < b.offset) := by
    intro u v huv
    exact huv.symm
  have hp : l.Pairwise (fun b c : Block =>
      b.offset + b.size < c.offset ∨ c.offset + c.size < b.offset) :=
    List.Pairwise.imp (fun huv => Or.inl huv) hg
  have := hp.forall hsym hb hc hne
  unfold Block.has at hbx hcx
  omega

/-- In a gapped list of non-empty blocks a run of covered bytes lies in one
block. -/
theorem gapped_run {l : List Block} (hg : Gapped l) (lo : Nat) :
    ∀ n, (∀ x, lo ≤ x → x < lo + (n + 1) → 0 < cover l x) →
      ∃ b ∈ l, b.offset ≤ lo ∧ lo + (n + 1) ≤ b.offset + b.size := by
  intro n
  induction n with
  | zero =>
    intro h
    obtain ⟨b, hb, hx⟩ := cover_pos (h lo (Nat.le_refl _) (by omega))
    unfold Block.has at hx
    exact ⟨b, hb, hx.1, by omega⟩
  | succ n ih =>
    intro h
    obtain ⟨b, hb, h1, h2⟩ := ih (fun x hx1 hx2 => h x hx1 (by omega))
    obtain ⟨c, hc, hcx⟩ := cover_pos (h (lo + (n + 1)) (by omega) (by omega))
    have hbx : b.has (lo + n) := by
      unfold Block.has
      omega
    have e := gapped_same_block hg hb hc hbx hcx
    subst e
    unfold Block.has at hcx
    exact ⟨b, hb, h1, by omega⟩

theorem matched_positive {req : Nat → Nat → Prop} {buffer total : Nat}
    (hreq : ∀ bytes a, req bytes a → positive_request bytes a) (htotal : 0 < total)
    {m : MemoryResource} {out : List (Nat × Nat)} (h : Matched req buffer total m out) :
    Positive m := by
  have hreq2 : ∀ bytes a, req bytes a → bounded_request bytes a :=
    fun bytes a hr => ⟨(hreq bytes a hr).1, (hreq bytes a hr).2.2⟩
  induction h with
  | fresh _ _ =>
    intro b hb
    simp [MemoryResource.create] at hb
    subst hb
    exact htotal
  | @allocate m out bytes a p hm hr hok ih =>
    obtain ⟨ha, haW, hs⟩ := is_pow2_of_bounded (hreq2 _ _ hr)
    exact positive_allocate (matched_facts hreq2 hm).2.2.2.1 ih ha haW hs (hreq _ _ hr).2.1 hok
  | @deallocate m out rest p bytes al hm hout hok ih =>
    obtain ⟨e1, _, hb, hinv, hperm⟩ := matched_facts hreq2 hm
    have hm2 := hperm.subset (hout.symm.subset (List.mem_cons_self _ _))
    obtain ⟨b, hbm, hbe⟩ := List.mem_map.mp hm2
    simp only [Prod.mk.injEq] at hbe
    have hblk : (⟨p - m.buffer_, bytes⟩ : Block) = b := by
      cases b
      simp only [Block.mk.injEq] at hbe ⊢
      omega
    exact (deallocate_gapped hinv ih (by omega) (hblk ▸ hbm) hok).2

/-- Gapped non-empty blocks are never adjacent. -/
theorem gapped_no_adjacent {l : List Block} (hg : Gapped l) (hpos : ∀ b ∈ l, 0 < b.size) :
    no_adjacent l := by
  intro i j hij
  have hp := List.pairwise_iff_get.mp hg
  have hi := hpos (l.get i) (List.get_mem l i.1 i.2)
  rcases Nat.lt_or_gt_of_ne (fun h => hij (Fin.ext h)) with h | h
  · have := hp i j h
    omega
  · have := hp j i h
    have hj := hpos (l.get j) (List.get_mem l j.1 j.2)
    omega

/-- Blocks of a list in which no byte is covered twice do not overlap. -/
theorem no_overlap_of_cover {l : List Block} (hc : ∀ x, cover l x ≤ 1) :
    l.Pairwise (fun b c => ¬ b.overlaps c) := by
  induction l with
  | nil => exact List.Pairwise.nil
  | cons b rest ih =>
    refine List.pairwise_cons.mpr ⟨?_, ih ?_⟩
    · intro c hcm hov
      unfold Block.overlaps at hov
      have h1 := hc (max b.offset c.offset)
      rw [cover_cons, if_pos ⟨le_max_left _ _, lt_of_lt_of_le hov (min_le_left _ _)⟩] at h1
      have h2 : 0 < cover rest (max b.offset c.offset) :=
        cover_pos_of_mem hcm ⟨le_max_right _ _, lt_of_lt_of_le hov (min_le_right _ _)⟩
      omega
    · intro x
      have := hc x
      rw [cover_cons] at this
      omega

/-- The arena invariant for requests that do not wrap: after any matched
sequence of calls every block of the two lists lies inside `[0, total)`, no two
blocks overlap, and the sizes add up to at most `total` (to exactly `total`). -/
theorem matched_bounded_invariant {buffer total : Nat} {m : MemoryResource}
    {out : List (Nat × Nat)} (h : Matched bounded_request buffer total m out) :
    (∀ b ∈ m.free_list_ ++ m.allocated_list_, b.inside total) ∧
    (m.free_list_ ++ m.allocated_list_).Pairwise (fun b c => ¬ b.overlaps c) ∧
    total_bytes m.free_list_ + total_bytes m.allocated_list_ ≤ total := by
  obtain ⟨_, e2, _, hinv, _⟩ := matched_facts (fun _ _ hr => hr) h
  refine ⟨e2 ▸ hinv.inside, ?_, ?_⟩
  · apply no_overlap_of_cover
    intro x
    rw [cover_append]
    exact inv_cover_le_one hinv x
  · rw [hinv.bytes, e2]

/-- After a completed matched `deallocate` on an arena whose requests had
positive sizes and did not wrap, no two free blocks are adjacent. -/
theorem deallocate_no_adjacent {buffer total : Nat} {m : MemoryResource}
    {out rest : List (Nat × Nat)} {p bytes al : Nat}
    (h : Matched positive_request buffer total m out) (hout : out.Perm ((p, bytes) :: rest))
    (hok : (do_deallocate m p bytes al).1 = .ok ()) :
    no_adjacent (do_deallocate m p bytes al).2.free_list_ := by
  have hreq2 : ∀ bytes a, positive_request bytes a → bounded_request bytes a :=
    fun bytes a hr => ⟨hr.1, hr.2.2⟩
  obtain ⟨e1, e2, hb, hinv, hperm⟩ := matched_facts hreq2 h
  have hm2 := hperm.subset (hout.symm.subset (List.mem_cons_self _ _))
  obtain ⟨b, hbm, hbe⟩ := List.mem_map.mp hm2
  simp only [Prod.mk.injEq] at hbe
  have hp : p ≠ 0 := by omega
  have hblk : (⟨p - m.buffer_, bytes⟩ : Block) = b := by
    cases b
    simp only [Block.mk.injEq] at hbe ⊢
    omega
  obtain ⟨h1, h2, _⟩ := do_deallocate_ok hp hok
  have htotal : 0 < total := by omega
  obtain ⟨g1, g2⟩ := deallocate_gapped hinv (matched_positive (fun _ _ hr => hr) htotal h) hp
    (hblk ▸ hbm) hok
  exact gapped_no_adjacent g1 (fun c hc => g2 c (List.mem_append_left _ hc))

/-! ## Building matched runs step by step -/

theorem matched_allocate_eq {req : Nat → Nat → Prop} {buffer total : Nat} {m : MemoryResource}
    {out : List (Nat × Nat)} (bytes a p : Nat) (m2 : MemoryResource)
    (h : Matched req buffer total m out) (hr : req bytes a)
    (e : do_allocate m bytes a = (.ok p, m2)) : Matched req buffer total m2 ((p, bytes) :: out) := by
  have h1 : (do_allocate m bytes a).1 = .ok p := by rw [e]
  have h2 : (do_allocate m bytes a).2 = m2 := by rw [e]
  exact h2 ▸ Matched.allocate bytes a p h hr h1

theorem matched_deallocate_eq {req : Nat → Nat → Prop} {buffer total : Nat} {m : MemoryResource}
    {out : List (Nat × Nat)} (p bytes al : Nat) (m2 : MemoryResource) (rest : List (Nat × Nat))
    (h : Matched req buffer total m out) (hout : out.Perm ((p, bytes) :: rest))
    (e : do_deallocate m p bytes al = (.ok (), m2)) : Matched req buffer total m2 rest := by
  have h1 : (do_deallocate m p bytes al).1 = .ok () := by rw [e]
  have h2 : (do_deallocate m p bytes al).2 = m2 := by rw [e]
  exact h2 ▸ Matched.deallocate p bytes al h hout h1

/-! ## Returning every block -/

/-- In a matched run whose requests have positive sizes and do not wrap, the
`deallocate` of an outstanding block completes. -/
theorem matched_deallocate_completes {buffer total : Nat} {m : MemoryResource}
    {out : List (Nat × Nat)} {p bytes : Nat} (al : Nat)
    (h : Matched positive_request buffer total m out) (hmem : (p, bytes) ∈ out) :
    (do_deallocate m p bytes al).1 = .ok () := by
  obtain ⟨e1, e2, hb, hinv, hperm⟩ := matched_facts (fun _ _ hr => ⟨hr.1, hr.2.2⟩) h
  obtain ⟨b, hbm, hbe⟩ := List.mem_map.mp (hperm.subset hmem)
  simp only [Prod.mk.injEq] at hbe
  have hin := hinv.inside b (List.mem_append_right _ hbm)
  unfold Block.inside at hin
  have htotal : 0 < total := by
    by_contra h0
    rw [e2] at hin
    have hcases : m = MemoryResource.create buffer total := by
      clear hbm hbe hin hperm hinv e1 e2 hmem
      induction h with
      | fresh _ _ => rfl
      | @allocate m out bytes a p hm hr hok ih =>
        exfalso
        subst ih
        have hf : find_fit bytes a (MemoryResource.create buffer total).free_list_ = none := by
          have ht : total = 0 := by omega
          subst ht
          have hpos := hr.2.1
          have hW := hr.2.2
          have ha := is_pow2_pos hr.1
          have hft : fit_test bytes a ⟨0, 0⟩ = false := by
            have e0 : align_up 0 a = 0 := by simp [align_up]
            have e1 : usub 0 0 = 0 := rfl
            have e2 : uadd 0 bytes = bytes := by
              unfold uadd
              rw [Nat.zero_add]
              exact Nat.mod_eq_of_lt (by omega)
            simp only [fit_test, e0, e1, e2]
            simp only [Nat.lt_irrefl, if_false]
            exact decide_eq_false (by omega)
          simp [find_fit, MemoryResource.create, hft]
        rw [do_allocate_none hf] at hok
        simp at hok
      | @deallocate m out rest p bytes al hm hout hok ih =>
        exfalso
        subst ih
        by_cases hp : p = 0
        · have hfacts := matched_facts (fun _ _ hr => ⟨hr.1, hr.2.2⟩) hm
          obtain ⟨c, _, hce⟩ := List.mem_map.mp
            (hfacts.2.2.2.2.subset (hout.symm.subset (List.mem_cons_self _ _)))
          simp only [Prod.mk.injEq] at hce
          have := hfacts.2.2.1
          omega
        · have := (do_deallocate_ok hp hok).2.1
          simp only [MemoryResource.create] at this
          omega
    subst hcases
    simp [MemoryResource.create] at hbm
  have hpos := matched_positive (fun _ _ hr => hr) htotal h b (List.mem_append_right _ hbm)
  exact do_deallocate_inside (by omega) (by omega) (by omega)

/-- When every block handed out has been returned, in a matched run whose
requests have positive sizes and do not wrap, the free list is the one block
`{0, total}` and the allocated list is empty. -/
theorem matched_all_returned {buffer total : Nat} {m : MemoryResource}
    (h : Matched positive_request buffer total m []) :
    m.free_list_ = [⟨0, total⟩] ∧ m.allocated_list_ = [] := by
  have hreq2 : ∀ bytes a, positive_request bytes a → bounded_request bytes a :=
    fun bytes a hr => ⟨hr.1, hr.2.2⟩
  obtain ⟨_, e2, _, hinv, hperm⟩ := matched_facts hreq2 h
  have halloc : m.allocated_list_ = [] := by
    have := hperm.length_eq
    simp only [List.length_nil, List.length_map] at this
    exact List.length_eq_zero.mp this.symm
  refine ⟨?_, halloc⟩
  generalize hout : ([] : List (Nat × Nat)) = out at h
  cases h with
  | fresh _ _ => rfl
  | allocate bytes a p hm hr hok => exact absurd hout (by simp)
  | @deallocate m0 out0 _ p bytes al hm hperm0 hok =>
    subst hout
    obtain ⟨e1, e2b, hb, hinv0, hpm0⟩ := matched_facts hreq2 hm
    have hm2 := hpm0.subset (hperm0.symm.subset (List.mem_cons_self _ _))
    obtain ⟨b, hbm, hbe⟩ := List.mem_map.mp hm2
    simp only [Prod.mk.injEq] at hbe
    have hp : p ≠ 0 := by omega
    have hblk : (⟨p - m0.buffer_, bytes⟩ : Block) = b := by
      cases b
      simp only [Block.mk.injEq] at hbe ⊢
      omega
    obtain ⟨_, hlt, _⟩ := do_deallocate_ok hp hok
    have htotal : 0 < total := by omega
    obtain ⟨hgap, hpos⟩ := deallocate_gapped hinv0
      (matched_positive (fun _ _ hr => hr) htotal hm) hp (hblk ▸ hbm) hok
    generalize (do_deallocate m0 p bytes al).2 = m at hinv halloc hgap hpos e2 ⊢
    have hcov : ∀ x, x < total → cover m.free_list_ x = 1 := by
      intro x hx
      have := hinv.partition x (by rw [e2]; exact hx)
      rw [halloc, cover_nil] at this
      omega
    obtain ⟨b0, hb0, h1, h2⟩ := gapped_run hgap 0 (total - 1)
      (fun x _ hx => by rw [hcov x (by omega)]; exact Nat.one_pos)
    have hin0 := hinv.inside b0 (List.mem_append_left _ hb0)
    unfold Block.inside at hin0
    rw [e2] at hin0
    have hb0eq : b0 = ⟨0, total⟩ := by
      cases b0
      simp only [Block.mk.injEq] at h1 h2 hin0 ⊢
      omega
    subst hb0eq
    have hperm1 := List.perm_cons_erase hb0
    have hnil : m.free_list_.erase ⟨0, total⟩ = [] := by
      apply List.eq_nil_iff_forall_not_mem.mpr
      intro c hc
      have hcm := List.mem_of_mem_erase hc
      have hcpos := hpos c (List.mem_append_left _ hcm)
      have hcin := hinv.inside c (List.mem_append_left _ hcm)
      unfold Block.inside at hcin
      rw [e2] at hcin
      have h3 := hcov c.offset (by omega)
      rw [cover_perm hperm1, cover_cons, if_pos ⟨Nat.zero_le _, by simp only; omega⟩] at h3
      have h4 : 0 < cover (m.free_list_.erase ⟨0, total⟩) c.offset :=
        cover_pos_of_mem hc ⟨Nat.le_refl _, by omega⟩
      omega
    rw [hnil] at hperm1
    exact List.perm_singleton.mp hperm1

/-- The round trip for requests of positive size that do not wrap: from any
state of a matched run, deallocating every outstanding block with its own
address and size, in any order, completes and leaves the free list as the one
block `{0, total}` and the allocated list empty. -/
theorem round_trip_positive {buffer total : Nat} (calls : List (Nat × Nat × Nat)) :
    ∀ (m : MemoryResource) (out : List (Nat × Nat)),
      Matched positive_request buffer total m out →
      (calls.map (fun c => (c.1, c.2.1))).Perm out →
      (deallocate_all m calls).1 = .ok () ∧
      (deallocate_all m calls).2.free_list_ = [⟨0, total⟩] ∧
      (deallocate_all m calls).2.allocated_list_ = [] := by
  induction calls with
  | nil =>
    intro m out h hperm
    have hout : out = [] := List.perm_nil.mp hperm.symm
    subst hout
    exact ⟨rfl, matched_all_returned h⟩
  | cons c rest ih =>
    intro m out h hperm
    obtain ⟨p, bytes, al⟩ := c
    simp only [List.map_cons] at hperm
    have hok := matched_deallocate_completes al h (hperm.subset (List.mem_cons_self _ _))
    have hm1 := Matched.deallocate p bytes al h hperm.symm hok
    have := ih _ _ hm1 (List.Perm.refl _)
    unfold deallocate_all
    generalize do_deallocate m p bytes al = r at hok this
    obtain ⟨o, m1⟩ := r
    cases o with
    | error e => simp at hok
    | ok u => exact this

/-! ## Freeing two neighbouring blocks -/

/-- The state left by a completed `do_deallocate` keeps the buffer and the
total size. -/
theorem do_deallocate_frame (m : MemoryResource) (p bytes al : Nat) :
    (do_deallocate m p bytes al).2.buffer_ = m.buffer_ ∧
    (do_deallocate m p bytes al).2.total_size_ = m.total_size_ := by
  unfold do_deallocate
  split
  · exact ⟨rfl, rfl⟩
  · simp only
    split <;> exact ⟨rfl, rfl⟩

/-- Two allocated blocks of positive size whose offsets are multiples of the
alignment `a`, with no byte of another allocated block between the two
offsets: when both are returned, `x` first, both calls complete and a block of
`sx + sy` bytes with alignment `a` can be allocated afterwards. -/
theorem free_two_then_fit {m : MemoryResource} (hinv : Inv m) (hpos : Positive m)
    (hbuf : 0 < m.buffer_) {rest : List Block} {ox sx oy sy a : Nat} (alx aly : Nat)
    (hperm : m.allocated_list_.Perm (⟨ox, sx⟩ :: ⟨oy, sy⟩ :: rest))
    (hgap : ∀ x, (ox ≤ x ∧ x < oy) ∨ (oy ≤ x ∧ x < ox) → cover rest x = 0)
    (ha : 0 < a) (haW : a < W) (hox : ox % a = 0) (hoy : oy % a = 0)
    (hsx : 0 < sx) (hsy : 0 < sy) :
    (do_deallocate m (m.buffer_ + ox) sx alx).1 = .ok () ∧
    (do_deallocate (do_deallocate m (m.buffer_ + ox) sx alx).2 (m.buffer_ + oy) sy aly).1
      = .ok () ∧
    ∃ q, (do_allocate
      (do_deallocate (do_deallocate m (m.buffer_ + ox) sx alx).2 (m.buffer_ + oy) sy aly).2
      (sx + sy) a).1 = .ok q := by
  have hxm : (⟨ox, sx⟩ : Block) ∈ m.allocated_list_ := hperm.symm.subset (by simp)
  have hym : (⟨oy, sy⟩ : Block) ∈ m.allocated_list_ := hperm.symm.subset (by simp)
  have hxin := hinv.inside _ (List.mem_append_right _ hxm)
  have hyin := hinv.inside _ (List.mem_append_right _ hym)
  simp only [Block.inside] at hxin hyin
  have hone : ∀ x, cover rest x + (if oy ≤ x ∧ x < oy + sy then 1 else 0)
      + (if ox ≤ x ∧ x < ox + sx then 1 else 0) ≤ 1 := by
    intro x
    have h1 := inv_cover_le_one hinv x
    rw [cover_perm hperm, cover_cons, cover_cons] at h1
    simp only at h1
    omega
  -- the first call
  have hpx : m.buffer_ + ox ≠ 0 := by omega
  have ex : m.buffer_ + ox - m.buffer_ = ox := Nat.add_sub_cancel_left _ _
  have hok1 : (do_deallocate m (m.buffer_ + ox) sx alx).1 = .ok () :=
    do_deallocate_inside hbuf (by omega) (by omega)
  have hxm2 : (⟨m.buffer_ + ox - m.buffer_, sx⟩ : Block) ∈ m.allocated_list_ := by
    rw [ex]; exact hxm
  have hinv3 := inv_deallocate hinv hpx hxm2 hok1
  have hpos3 := (deallocate_gapped hinv hpos hpx hxm2 hok1).2
  obtain ⟨_, _, hst3⟩ := do_deallocate_ok hpx hok1
  rw [ex] at hst3
  obtain ⟨hb3, ht3⟩ := do_deallocate_frame m (m.buffer_ + ox) sx alx
  generalize do_deallocate m (m.buffer_ + ox) sx alx = r3 at hok1 hinv3 hpos3 hst3 hb3 ht3 ⊢
  obtain ⟨o3, m3⟩ := r3
  simp only at hok1 hinv3 hpos3 hst3 hb3 ht3 ⊢
  have halloc3 : m3.allocated_list_ = m.allocated_list_.erase ⟨ox, sx⟩ := by rw [hst3]
  -- the second call
  have hne : (⟨oy, sy⟩ : Block) ≠ ⟨ox, sx⟩ := by
    intro h
    simp only [Block.mk.injEq] at h
    have h1 := hone ox
    split_ifs at h1 <;> omega
  have hym3 : (⟨oy, sy⟩ : Block) ∈ m3.allocated_list_ := by
    rw [halloc3]
    exact (List.mem_erase_of_ne hne).mpr hym
  have hpy : m.buffer_ + oy ≠ 0 := by omega
  have ey : m.buffer_ + oy - m3.buffer_ = oy := by rw [hb3]; exact Nat.add_sub_cancel_left _ _
  have hok2 : (do_deallocate m3 (m.buffer_ + oy) sy aly).1 = .ok () :=
    do_deallocate_inside (by omega) (by omega) (by omega)
  have hym4 : (⟨m.buffer_ + oy - m3.buffer_, sy⟩ : Block) ∈ m3.allocated_list_ := by
    rw [ey]; exact hym3
  have hinv4 := inv_deallocate hinv3 hpy hym4 hok2
  obtain ⟨hgap4, _⟩ := deallocate_gapped hinv3 hpos3 hpy hym4 hok2
  obtain ⟨_, _, hst4⟩ := do_deallocate_ok hpy hok2
  rw [ey] at hst4
  obtain ⟨_, ht4⟩ := do_deallocate_frame m3 (m.buffer_ + oy) sy aly
  generalize do_deallocate m3 (m.buffer_ + oy) sy aly = r4 at hok2 hinv4 hgap4 hst4 ht4 ⊢
  obtain ⟨o4, m4⟩ := r4
  simp only at hok2 hinv4 hgap4 hst4 ht4 ⊢
  refine ⟨hok1, hok2, ?_⟩
  have halloc4 : m4.allocated_list_ = (m.allocated_list_.erase ⟨ox, sx⟩).erase ⟨oy, sy⟩ := by
    rw [hst4, halloc3]
  have hperm4 : m4.allocated_list_.Perm rest := by
    rw [halloc4]
    have h1 := (hperm.erase (⟨ox, sx⟩ : Block)).erase (⟨oy, sy⟩ : Block)
    rw [List.erase_cons_head, List.erase_cons_head] at h1
    exact h1
  -- every byte of the range is free
  have hfree : ∀ x, x < m.total_size_ → cover rest x = 0 → 0 < cover m4.free_list_ x := by
    intro x hxt h0
    have h2 := hinv4.partition x (by rw [ht4, ht3]; exact hxt)
    rw [cover_perm hperm4] at h2
    omega
  have hcov : ∃ lo, lo % a = 0 ∧
      ∀ x, lo ≤ x → x < lo + (sx + sy - 1 + 1) → 0 < cover m4.free_list_ x := by
    by_cases hle : ox ≤ oy
    · have hd : ox + sx ≤ oy := by
        have h1 := hone oy
        split_ifs at h1 <;> omega
      refine ⟨ox, hox, fun x hx1 hx2 => ?_⟩
      apply hfree x (by omega)
      by_cases hxy : x < oy
      · exact hgap x (Or.inl ⟨hx1, hxy⟩)
      · have h1 := hone x
        split_ifs at h1 <;> omega
    · have hd : oy + sy ≤ ox := by
        have h1 := hone ox
        split_ifs at h1 <;> omega
      refine ⟨oy, hoy, fun x hx1 hx2 => ?_⟩
      apply hfree x (by omega)
      by_cases hxy : x < ox
      · exact hgap x (Or.inr ⟨hx1, hxy⟩)
      · have h1 := hone x
        split_ifs at h1 <;> omega
  obtain ⟨lo, hlo, hcov⟩ := hcov
  obtain ⟨b, hb, hb1, hb2⟩ := gapped_run hgap4 lo (sx + sy - 1) hcov
  have hbW := (inv_free_lt hinv4) b hb
  have hal := spec_align_up_le ha hb1 hlo
  have hge := spec_align_up_ge b.offset a
  have hfits : spec_fits (sx + sy) a b := by
    unfold spec_fits
    omega
  obtain ⟨r, hr⟩ := find_fit_of_fits hb (fit_test_of_spec_fits hbW ha haW hfits)
  obtain ⟨i, it⟩ := r
  exact ⟨_, by rw [do_allocate_some hr]⟩

/-- The arena of 16 bytes at address 4096 after `allocate(1, 1)`: a state
reached by matched calls, with one outstanding allocation. -/
theorem matched_after_one_byte :
    Matched any_request 4096 16 ⟨4096, 16, [⟨1, 15⟩], [⟨0, 1⟩]⟩ [(4096, 1)] :=
  matched_allocate_eq 1 1 4096 _ (Matched.fresh (by decide) (by decide))
    ⟨by decide, by decide⟩ (by decide)

/-- The arena of 16 bytes after `allocate(1, 1)` and then
`allocate(2^64 - 1, 2)`: the second request is accepted because
`padding + size` wraps to `0` in `find_fit`. -/
theorem matched_after_wrapped_request :
    Matched any_request 4096 16
      ⟨4096, 16, [⟨1, 1⟩, ⟨1, 15⟩], [⟨0, 1⟩, ⟨2, 2 ^ 64 - 1⟩]⟩
      [(4098, 2 ^ 64 - 1), (4096, 1)] :=
  matched_allocate_eq (2 ^ 64 - 1) 2 4098 _ matched_after_one_byte
    ⟨by decide, by decide⟩ (by decide)

/-! ## The claims -/

/-- C1 (fails on the code): after the matched calls `allocate(1, 1)`,
`allocate(2^64 - 1, 2)` on a fresh arena of 16 bytes, which both succeed, the
allocated list holds a block that does not lie inside `[0, 16)`, two free
blocks overlap, and the block sizes add up to more than 16. -/
theorem C1_invariant_broken_by_wrapped_request :
    Matched any_request 4096 16
      ⟨4096, 16, [⟨1, 1⟩, ⟨1, 15⟩], [⟨0, 1⟩, ⟨2, 2 ^ 64 - 1⟩]⟩
      [(4098, 2 ^ 64 - 1), (4096, 1)] ∧
    ¬ (⟨2, 2 ^ 64 - 1⟩ : Block).inside 16 ∧
    (⟨1, 1⟩ : Block).overlaps ⟨1, 15⟩ ∧
    ¬ (total_bytes [⟨1, 1⟩, ⟨1, 15⟩] + total_bytes [⟨0, 1⟩, ⟨2, 2 ^ 64 - 1⟩] ≤ 16) :=
  ⟨matched_after_wrapped_request, by decide, by decide, by decide⟩

/-- C2 (fails on the code): on an arena of 1024 bytes whose buffer starts at
address 4112, a multiple of 16 but not of 64, `allocate(50, 64)` succeeds and
returns the address 4112, which is not a multiple of 64: the code aligns the
offset inside the buffer, not the address. -/
theorem C2_address_not_aligned :
    Matched any_request 4112 1024 (MemoryResource.create 4112 1024) [] ∧
    any_request 50 64 ∧ 64 ≤ 1024 ∧
    (do_allocate (MemoryResource.create 4112 1024) 50 64).1 = .ok 4112 ∧
    4112 % 64 ≠ 0 :=
  ⟨Matched.fresh (by decide) (by decide), ⟨by decide, by decide⟩, by decide, by decide,
    by decide⟩

/-- C3 (fails on the code): on the arena of 16 bytes reached by
`allocate(1, 1)`, the request `allocate(2^64 - 1, 2)`, whose size is greater
than the total size, does not throw: it returns the address 4098 and changes
both lists. -/
theorem C3_oversized_request_accepted :
    Matched any_request 4096 16 ⟨4096, 16, [⟨1, 15⟩], [⟨0, 1⟩]⟩ [(4096, 1)] ∧
    any_request (2 ^ 64 - 1) 2 ∧ 16 < 2 ^ 64 - 1 ∧
    do_allocate ⟨4096, 16, [⟨1, 15⟩], [⟨0, 1⟩]⟩ (2 ^ 64 - 1) 2 =
      (.ok 4098, ⟨4096, 16, [⟨1, 1⟩, ⟨1, 15⟩], [⟨0, 1⟩, ⟨2, 2 ^ 64 - 1⟩]⟩) :=
  ⟨matched_after_one_byte, ⟨by decide, by decide⟩, by decide, by decide⟩

/-- C4 (fails on the code): with the free list `[{1, 15}]` no free block
satisfies `(align_up(offset, 2) - offset) + (2^64 - 1) <= size`, and yet
`allocate(2^64 - 1, 2)` does not fail: it returns offset 2 of that block. -/
theorem C4_fit_without_fitting_block :
    (∀ b ∈ (⟨4096, 16, [⟨1, 15⟩], [⟨0, 1⟩]⟩ : MemoryResource).free_list_,
      ¬ spec_fits (2 ^ 64 - 1) 2 b) ∧
    (do_allocate ⟨4096, 16, [⟨1, 15⟩], [⟨0, 1⟩]⟩ (2 ^ 64 - 1) 2).1 = .ok (4096 + 2) :=
  ⟨by decide, by decide⟩

/-- C7: on a fresh arena of any total size `n`, `allocate(n, 1)` succeeds,
returns offset 0 (the address of the buffer) and leaves the free list empty;
in the state it leaves, every `allocate`, whatever its size and alignment,
throws `std::bad_alloc` and leaves that state as it is, so that every later
`allocate` fails too as long as no `deallocate` is made. -/
theorem C7_exact_fit_then_exhausted (buffer n : Nat) (hn : n < W) :
    do_allocate (MemoryResource.create buffer n) n 1
      = (.ok (buffer + 0), ⟨buffer, n, [], [⟨0, n⟩]⟩) ∧
    ∀ bytes a : Nat,
      do_allocate ⟨buffer, n, [], [⟨0, n⟩]⟩ bytes a
        = (.error .bad_alloc, ⟨buffer, n, [], [⟨0, n⟩]⟩) := by
  constructor
  · have h0 : align_up 0 1 = 0 := rfl
    have h1 : usub 0 0 = 0 := rfl
    have h2 : uadd 0 n = n := by
      unfold uadd
      rw [Nat.zero_add]
      exact Nat.mod_eq_of_lt hn
    have h3 : usub n n = 0 := by
      rw [usub_eq (Nat.le_refl n) hn]
      exact Nat.sub_self n
    have hfit : find_fit n 1 (MemoryResource.create buffer n).free_list_ = some (0, ⟨0, n⟩) := by
      simp [find_fit, MemoryResource.create, fit_test, h0, h1, h2]
    rw [do_allocate_some hfit]
    simp [h0, h1, h2, h3, MemoryResource.create]
  · intro bytes a
    exact do_allocate_none rfl

/-- C7 at the arena of the test `AllocateExactFit`: 256 bytes. -/
theorem C7_exact_fit_then_exhausted_witness :
    256 < W ∧
    (do_allocate (MemoryResource.create 4096 256) 256 1
      = (.ok (4096 + 0), ⟨4096, 256, [], [⟨0, 256⟩]⟩) ∧
    ∀ bytes a : Nat,
      do_allocate ⟨4096, 256, [], [⟨0, 256⟩]⟩ bytes a
        = (.error .bad_alloc, ⟨4096, 256, [], [⟨0, 256⟩]⟩)) :=
  ⟨by decide, C7_exact_fit_then_exhausted 4096 256 (by decide)⟩

/-- C8 (as stated, fails): the null address lies outside the buffer
`[4096, 4096 + 16)` and `deallocate` of it does not fail: it returns at once. -/
theorem C8_null_address_accepted :
    ¬ (4096 ≤ 0 ∧ 0 < 4096 + 16) ∧
    do_deallocate (MemoryResource.create 4096 16) 0 8 1
      = (.ok (), MemoryResource.create 4096 16) :=
  ⟨by decide, by decide⟩

/-- C8 (amended): `deallocate(address, size, alignment)` throws
`std::runtime_error` exactly when the address is not null and lies outside
`[buffer_, buffer_ + total_size_)`; it throws nothing else, and when it throws
the arena, both lists included, is unchanged; a null address makes it return
at once with the arena unchanged. -/
theorem C8_invalid_pointer (m : MemoryResource) (p bytes al : Nat) :
    ((do_deallocate m p bytes al).1 = .error .runtime_error ↔
      (p ≠ 0 ∧ ¬ (m.buffer_ ≤ p ∧ p < m.buffer_ + m.total_size_))) ∧
    ((do_deallocate m p bytes al).1 ≠ .ok () →
      do_deallocate m p bytes al = (.error .runtime_error, m)) ∧
    (p = 0 → do_deallocate m p bytes al = (.ok (), m)) := by
  unfold do_deallocate
  by_cases hp : p = 0
  · simp [hp]
  · by_cases hc : ((p : Int) - (m.buffer_ : Int) < 0 ∨
        m.total_size_ ≤ ((p : Int) - (m.buffer_ : Int)).toNat)
    · have hout : ¬ (m.buffer_ ≤ p ∧ p < m.buffer_ + m.total_size_) := by omega
      rw [if_neg hp, if_pos hc]
      exact ⟨⟨fun _ => ⟨hp, hout⟩, fun _ => rfl⟩, fun _ => rfl, fun h => absurd h hp⟩
    · have hin : m.buffer_ ≤ p ∧ p < m.buffer_ + m.total_size_ := by omega
      rw [if_neg hp, if_neg hc]
      exact ⟨⟨fun h => by simp at h, fun h => absurd hin h.2⟩, fun h => absurd rfl h,
        fun h => absurd h hp⟩

/-- C8 (amended) at an address below the buffer, which is rejected with the
lists unchanged. -/
theorem C8_invalid_pointer_witness :
    do_deallocate (MemoryResource.create 4096 16) 4000 8 1
      = (.error .runtime_error, MemoryResource.create 4096 16) :=
  (C8_invalid_pointer (MemoryResource.create 4096 16) 4000 8 1).2.1 (by decide)

/-- The arena of 16 bytes with the blocks `{0, 4}` and `{8, 8}` free and the
block `{4, 4}` between them allocated, reached by three allocations and two
deallocations of positive sizes. -/
theorem matched_two_holes :
    Matched positive_request 4096 16 ⟨4096, 16, [⟨0, 4⟩, ⟨8, 8⟩], [⟨4, 4⟩]⟩ [(4100, 4)] := by
  have h0 : Matched positive_request 4096 16 (MemoryResource.create 4096 16) [] :=
    Matched.fresh (by decide) (by decide)
  have h1 := matched_allocate_eq 4 1 4096 ⟨4096, 16, [⟨4, 12⟩], [⟨0, 4⟩]⟩ h0
    ⟨by decide, by decide, by decide⟩ (by decide)
  have h2 := matched_allocate_eq 4 1 4100 ⟨4096, 16, [⟨8, 8⟩], [⟨0, 4⟩, ⟨4, 4⟩]⟩ h1
    ⟨by decide, by decide, by decide⟩ (by decide)
  have h3 := matched_allocate_eq 8 1 4104 ⟨4096, 16, [], [⟨0, 4⟩, ⟨4, 4⟩, ⟨8, 8⟩]⟩ h2
    ⟨by decide, by decide, by decide⟩ (by decide)
  have h4 := matched_deallocate_eq 4096 4 1 ⟨4096, 16, [⟨0, 4⟩], [⟨4, 4⟩, ⟨8, 8⟩]⟩
    [(4104, 8), (4100, 4)] h3 (by decide) (by decide)
  exact matched_deallocate_eq 4104 8 1 ⟨4096, 16, [⟨0, 4⟩, ⟨8, 8⟩], [⟨4, 4⟩]⟩
    [(4100, 4)] h4 (by decide) (by decide)

/-- C5 (as stated, fails): in the reachable state with free blocks `{0, 4}`
and `{8, 8}` around the allocated block `{4, 4}`, the successive allocations
of 4 and of 8 bytes with alignment 1 succeed, in two different free blocks;
after both are deallocated, in either order, `allocate(4 + 8, 1)` throws
`std::bad_alloc`. -/
theorem C5_separate_blocks_do_not_coalesce :
    Matched positive_request 4096 16 ⟨4096, 16, [⟨0, 4⟩, ⟨8, 8⟩], [⟨4, 4⟩]⟩ [(4100, 4)] ∧
    do_allocate ⟨4096, 16, [⟨0, 4⟩, ⟨8, 8⟩], [⟨4, 4⟩]⟩ 4 1
      = (.ok 4096, ⟨4096, 16, [⟨8, 8⟩], [⟨4, 4⟩, ⟨0, 4⟩]⟩) ∧
    do_allocate ⟨4096, 16, [⟨8, 8⟩], [⟨4, 4⟩, ⟨0, 4⟩]⟩ 8 1
      = (.ok 4104, ⟨4096, 16, [], [⟨4, 4⟩, ⟨0, 4⟩, ⟨8, 8⟩]⟩) ∧
    free_both_then_allocate ⟨4096, 16, [], [⟨4, 4⟩, ⟨0, 4⟩, ⟨8, 8⟩]⟩
      4096 4 1 4104 8 1 (4 + 8) 1 = .error .bad_alloc ∧
    free_both_then_allocate ⟨4096, 16, [], [⟨4, 4⟩, ⟨0, 4⟩, ⟨8, 8⟩]⟩
      4104 8 1 4096 4 1 (4 + 8) 1 = .error .bad_alloc :=
  ⟨matched_two_holes, by decide, by decide, by decide, by decide⟩

/-- Scenario B for a buffer at any non-null address: on a fresh arena of 1024
bytes the allocations of 100 and of 200 bytes with alignment 8 succeed at
offsets 0 and 104, and after they are deallocated in reverse order
`allocate(1000, 8)` succeeds at offset 0. -/
theorem scenario_B (buffer : Nat) (hb : 0 < buffer) :
    (do_allocate (MemoryResource.create buffer 1024) 100 8).1 = .ok (buffer + 0) ∧
    (do_allocate (do_allocate (MemoryResource.create buffer 1024) 100 8).2 200 8).1
      = .ok (buffer + 104) ∧
    free_both_then_allocate
      (do_allocate (do_allocate (MemoryResource.create buffer 1024) 100 8).2 200 8).2
      (buffer + 104) 200 8 (buffer + 0) 100 8 1000 8 = .ok (buffer + 0) := by
  have e1 : do_allocate (MemoryResource.create buffer 1024) 100 8
      = (.ok (buffer + 0), ⟨buffer, 1024, [⟨100, 924⟩], [⟨0, 100⟩]⟩) :=
    @do_allocate_some (MemoryResource.create buffer 1024) 100 8 0 ⟨0, 1024⟩
      (show find_fit 100 8 [⟨0, 1024⟩] = some (0, ⟨0, 1024⟩) by decide)
  have e2 : do_allocate ⟨buffer, 1024, [⟨100, 924⟩], [⟨0, 100⟩]⟩ 200 8
      = (.ok (buffer + 104), ⟨buffer, 1024, [⟨100, 4⟩, ⟨304, 720⟩], [⟨0, 100⟩, ⟨104, 200⟩]⟩) :=
    @do_allocate_some ⟨buffer, 1024, [⟨100, 924⟩], [⟨0, 100⟩]⟩ 200 8 0 ⟨100, 924⟩
      (show find_fit 200 8 [⟨100, 924⟩] = some (0, ⟨100, 924⟩) by decide)
  have hok3 : (do_deallocate ⟨buffer, 1024, [⟨100, 4⟩, ⟨304, 720⟩], [⟨0, 100⟩, ⟨104, 200⟩]⟩
      (buffer + 104) 200 8).1 = .ok () :=
    do_deallocate_inside hb (Nat.le_add_right _ _)
      (Nat.add_lt_add_left (show 104 < 1024 by decide) _)
  have e3 : (do_deallocate ⟨buffer, 1024, [⟨100, 4⟩, ⟨304, 720⟩], [⟨0, 100⟩, ⟨104, 200⟩]⟩
      (buffer + 104) 200 8).2 = ⟨buffer, 1024, [⟨100, 924⟩], [⟨0, 100⟩]⟩ := by
    rw [(do_deallocate_ok (by omega) hok3).2.2]
    simp only [Nat.add_sub_cancel_left]
    congr 1
  have hok4 : (do_deallocate ⟨buffer, 1024, [⟨100, 924⟩], [⟨0, 100⟩]⟩
      (buffer + 0) 100 8).1 = .ok () :=
    do_deallocate_inside hb (Nat.le_add_right _ _)
      (Nat.add_lt_add_left (show 0 < 1024 by decide) _)
  have e4 : (do_deallocate ⟨buffer, 1024, [⟨100, 924⟩], [⟨0, 100⟩]⟩
      (buffer + 0) 100 8).2 = ⟨buffer, 1024, [⟨0, 1024⟩], []⟩ := by
    rw [(do_deallocate_ok (by omega) hok4).2.2]
    simp only [Nat.add_sub_cancel_left]
    congr 1
  have e5 : do_allocate ⟨buffer, 1024, [⟨0, 1024⟩], []⟩ 1000 8
      = (.ok (buffer + 0), ⟨buffer, 1024, [⟨1000, 24⟩], [⟨0, 1000⟩]⟩) :=
    @do_allocate_some ⟨buffer, 1024, [⟨0, 1024⟩], []⟩ 1000 8 0 ⟨0, 1024⟩
      (show find_fit 1000 8 [⟨0, 1024⟩] = some (0, ⟨0, 1024⟩) by decide)
  refine ⟨by rw [e1], by rw [e1, e2], ?_⟩
  unfold free_both_then_allocate
  rw [e1, e2]
  simp only [hok3, e3, hok4, e4, e5]

/-- C5 (amended): in every arena state reachable through matched calls whose
requests have positive sizes and do not wrap, if two successive allocations of
positive sizes `s1` and `s2` with the same alignment `a` succeed and no byte of
a block that is still outstanding lies between the two addresses returned,
then after both are deallocated, each with its own address and size, in either
order, `allocate(s1 + s2, a)` succeeds; and on a fresh arena of 1024 bytes,
after allocating 100 and 200 bytes at alignment 8 and freeing them in reverse
order, `allocate(1000, 8)` succeeds. -/
theorem C5_neighbouring_blocks_coalesce (buffer total : Nat) (m : MemoryResource)
    (out : List (Nat × Nat)) (s1 s2 a p1 p2 al1 al2 : Nat)
    (hm : Matched positive_request buffer total m out)
    (h1 : positive_request s1 a) (h2 : positive_request s2 a)
    (ha1 : (do_allocate m s1 a).1 = .ok p1)
    (ha2 : (do_allocate (do_allocate m s1 a).2 s2 a).1 = .ok p2)
    (hgap : ∀ q n y, (q, n) ∈ out → q ≤ y → y < q + n →
      ¬ ((p1 ≤ y ∧ y < p2) ∨ (p2 ≤ y ∧ y < p1))) :
    (∃ q, free_both_then_allocate (do_allocate (do_allocate m s1 a).2 s2 a).2
      p1 s1 al1 p2 s2 al2 (s1 + s2) a = .ok q) ∧
    (∃ q, free_both_then_allocate (do_allocate (do_allocate m s1 a).2 s2 a).2
      p2 s2 al2 p1 s1 al1 (s1 + s2) a = .ok q) ∧
    free_both_then_allocate
      (do_allocate (do_allocate (MemoryResource.create buffer 1024) 100 8).2 200 8).2
      (buffer + 104) 200 8 (buffer + 0) 100 8 1000 8 = .ok (buffer + 0) := by
  have hreq2 : ∀ bytes a, positive_request bytes a → bounded_request bytes a :=
    fun bytes a hr => ⟨hr.1, hr.2.2⟩
  obtain ⟨e1, e2, hb, hinv, hout⟩ := matched_facts hreq2 hm
  obtain ⟨ha, haW, hs1⟩ := is_pow2_of_bounded (hreq2 _ _ h1)
  have hs2 := h2.2.2
  -- the first allocation
  obtain ⟨_, _, it1, _, _, _, hp1, hst1⟩ := do_allocate_ok (inv_free_lt hinv) ha haW hs1 ha1
  have hinv1 := inv_allocate hinv ha haW hs1 ha1
  have hposr := fun (ht : 0 < total) =>
    positive_allocate hinv (matched_positive (fun _ _ hr => hr) ht hm) ha haW hs1 h1.2.1 ha1
  generalize (do_allocate m s1 a).2 = m1 at ha2 hst1 hinv1 hposr ⊢
  have hb1 : m1.buffer_ = m.buffer_ := by rw [hst1]
  have ht1 : m1.total_size_ = m.total_size_ := by rw [hst1]
  have hal1 : m1.allocated_list_ = m.allocated_list_ ++ [⟨spec_align_up it1.offset a, s1⟩] := by
    rw [hst1]
  have hin1 := hinv1.inside ⟨spec_align_up it1.offset a, s1⟩
    (List.mem_append_right _ (by rw [hal1]; simp))
  simp only [Block.inside] at hin1
  have htotal : 0 < total := by have := h1.2.1; omega
  have hpos1 := hposr htotal
  -- the second allocation
  obtain ⟨_, _, it2, _, _, _, hp2, hst2⟩ := do_allocate_ok (inv_free_lt hinv1) ha haW hs2 ha2
  have hinv2 := inv_allocate hinv1 ha haW hs2 ha2
  have hpos2 := positive_allocate hinv1 hpos1 ha haW hs2 h2.2.1 ha2
  generalize (do_allocate m1 s2 a).2 = m2 at hst2 hinv2 hpos2 ⊢
  have hb2 : m2.buffer_ = m.buffer_ := by rw [hst2]; exact hb1
  have hal2 : m2.allocated_list_ = m.allocated_list_ ++ [⟨spec_align_up it1.offset a, s1⟩]
      ++ [⟨spec_align_up it2.offset a, s2⟩] := by
    rw [hst2]; simp only; rw [hal1]
  have hperm12 : m2.allocated_list_.Perm (⟨spec_align_up it1.offset a, s1⟩ ::
      ⟨spec_align_up it2.offset a, s2⟩ :: m.allocated_list_) := by
    rw [hal2, List.append_assoc]
    exact List.perm_append_comm
  have hperm21 : m2.allocated_list_.Perm (⟨spec_align_up it2.offset a, s2⟩ ::
      ⟨spec_align_up it1.offset a, s1⟩ :: m.allocated_list_) :=
    hperm12.trans (List.Perm.swap _ _ _)
  have hp1b : p1 = m2.buffer_ + spec_align_up it1.offset a := by rw [hb2]; exact hp1
  have hp2b : p2 = m2.buffer_ + spec_align_up it2.offset a := by rw [hb2, ← hb1]; exact hp2
  have hmod1 := spec_align_up_mod it1.offset ha
  have hmod2 := spec_align_up_mod it2.offset ha
  have hbuf2 : 0 < m2.buffer_ := by rw [hb2, e1]; exact hb
  -- no block allocated before lies between the two
  have hfree : ∀ x, (spec_align_up it1.offset a ≤ x ∧ x < spec_align_up it2.offset a) ∨
      (spec_align_up it2.offset a ≤ x ∧ x < spec_align_up it1.offset a) →
      cover m.allocated_list_ x = 0 := by
    intro x hx
    by_contra hc
    obtain ⟨b, hbm, hbx⟩ := cover_pos (Nat.pos_of_ne_zero hc)
    have hbo : (buffer + b.offset, b.size) ∈ out :=
      hout.symm.subset (List.mem_map_of_mem (fun b : Block => (buffer + b.offset, b.size)) hbm)
    unfold Block.has at hbx
    rw [hb2, e1] at hp1b hp2b
    apply hgap (buffer + b.offset) b.size (buffer + x) hbo (by omega) (by omega)
    omega
  refine ⟨?_, ?_, (scenario_B buffer hb).2.2⟩
  · obtain ⟨k1, k2, q, k3⟩ := free_two_then_fit hinv2 hpos2 hbuf2 al1 al2 hperm12
      hfree ha haW hmod1 hmod2 h1.2.1 h2.2.1
    rw [← hp1b] at k1 k2 k3
    rw [← hp2b] at k2 k3
    refine ⟨q, ?_⟩
    unfold free_both_then_allocate
    simp only [k1, k2, k3]
  · obtain ⟨k1, k2, q, k3⟩ := free_two_then_fit hinv2 hpos2 hbuf2 al2 al1 hperm21
      (fun x hx => hfree x hx.symm) ha haW hmod2 hmod1 h2.2.1 h1.2.1
    rw [← hp2b] at k1 k2 k3
    rw [← hp1b] at k2 k3
    rw [Nat.add_comm s2 s1] at k3
    refine ⟨q, ?_⟩
    unfold free_both_then_allocate
    simp only [k1, k2, k3]

/-- C5 (amended) on the pair of the claim: on a fresh arena of 1024 bytes the
allocations of 100 and of 200 bytes with alignment 8 succeed at offsets 0 and
104, with the 4 bytes of padding between them, and no block is outstanding. -/
theorem C5_neighbouring_blocks_coalesce_witness :
    ((do_allocate (MemoryResource.create 4096 1024) 100 8).1 = .ok 4096 ∧
      (do_allocate (do_allocate (MemoryResource.create 4096 1024) 100 8).2 200 8).1
        = .ok 4200) ∧
    (∃ q, free_both_then_allocate
      (do_allocate (do_allocate (MemoryResource.create 4096 1024) 100 8).2 200 8).2
      4096 100 8 4200 200 8 (100 + 200) 8 = .ok q) ∧
    (∃ q, free_both_then_allocate
      (do_allocate (do_allocate (MemoryResource.create 4096 1024) 100 8).2 200 8).2
      4200 200 8 4096 100 8 (100 + 200) 8 = .ok q) ∧
    free_both_then_allocate
      (do_allocate (do_allocate (MemoryResource.create 4096 1024) 100 8).2 200 8).2
      (4096 + 104) 200 8 (4096 + 0) 100 8 1000 8 = .ok (4096 + 0) :=
  ⟨⟨by decide, by decide⟩,
    C5_neighbouring_blocks_coalesce 4096 1024 (MemoryResource.create 4096 1024) [] 100 200 8
      4096 4200 8 8 (Matched.fresh (by decide) (by decide)) ⟨by decide, by decide, by decide⟩
      ⟨by decide, by decide, by decide⟩ (by decide) (by decide)
      (fun _ _ _ h => absurd h (List.not_mem_nil _))⟩

/-- C6 (fails on the code): on a fresh arena of 16 bytes the allocations
`allocate(1, 1)` and `allocate(2^64 - 1, 2)`, both of positive size, succeed;
after both are deallocated with their own addresses and sizes, in either
order, the allocated list is empty but the free list is
`[{0, 2}, {1, 15}, {2, 2^64 - 1}]`, not the one block `{0, 16}`. -/
theorem C6_round_trip_broken_by_wrapped_request :
    do_allocate (MemoryResource.create 4096 16) 1 1
      = (.ok 4096, ⟨4096, 16, [⟨1, 15⟩], [⟨0, 1⟩]⟩) ∧
    do_allocate ⟨4096, 16, [⟨1, 15⟩], [⟨0, 1⟩]⟩ (2 ^ 64 - 1) 2
      = (.ok 4098, ⟨4096, 16, [⟨1, 1⟩, ⟨1, 15⟩], [⟨0, 1⟩, ⟨2, 2 ^ 64 - 1⟩]⟩) ∧
    do_deallocate
      (do_deallocate ⟨4096, 16, [⟨1, 1⟩, ⟨1, 15⟩], [⟨0, 1⟩, ⟨2, 2 ^ 64 - 1⟩]⟩
        4098 (2 ^ 64 - 1) 2).2 4096 1 1
      = (.ok (), ⟨4096, 16, [⟨0, 2⟩, ⟨1, 15⟩, ⟨2, 2 ^ 64 - 1⟩], []⟩) ∧
    do_deallocate
      (do_deallocate ⟨4096, 16, [⟨1, 1⟩, ⟨1, 15⟩], [⟨0, 1⟩, ⟨2, 2 ^ 64 - 1⟩]⟩
        4096 1 1).2 4098 (2 ^ 64 - 1) 2
      = (.ok (), ⟨4096, 16, [⟨0, 2⟩, ⟨1, 15⟩, ⟨2, 2 ^ 64 - 1⟩], []⟩) ∧
    ([⟨0, 2⟩, ⟨1, 15⟩, ⟨2, 2 ^ 64 - 1⟩] : List Block) ≠ [⟨0, 16⟩] :=
  ⟨by decide, by decide, by decide, by decide, by decide⟩

/-- The arena of 4 bytes in which the block `{2, 2}` is allocated and the free
list is `[{0, 2}, {1, 0}]`, reached by matched calls one of which allocates and
returns a block of size 0. -/
theorem matched_empty_free_block :
    Matched any_request 4096 4 ⟨4096, 4, [⟨0, 2⟩, ⟨1, 0⟩], [⟨2, 2⟩]⟩ [(4098, 2)] := by
  have h0 : Matched any_request 4096 4 (MemoryResource.create 4096 4) [] :=
    Matched.fresh (by decide) (by decide)
  have h1 := matched_allocate_eq 1 1 4096 ⟨4096, 4, [⟨1, 3⟩], [⟨0, 1⟩]⟩ h0
    ⟨by decide, by decide⟩ (by decide)
  have h2 := matched_allocate_eq 0 1 4097 ⟨4096, 4, [⟨1, 3⟩], [⟨0, 1⟩, ⟨1, 0⟩]⟩ h1
    ⟨by decide, by decide⟩ (by decide)
  have h3 := matched_deallocate_eq 4096 1 1 ⟨4096, 4, [⟨0, 4⟩], [⟨1, 0⟩]⟩
    [(4097, 0)] h2 (by decide) (by decide)
  have h4 := matched_deallocate_eq 4097 0 1 ⟨4096, 4, [⟨0, 4⟩, ⟨1, 0⟩], []⟩
    [] h3 (by decide) (by decide)
  have h5 := matched_allocate_eq 2 1 4096 ⟨4096, 4, [⟨1, 0⟩, ⟨2, 2⟩], [⟨0, 2⟩]⟩ h4
    ⟨by decide, by decide⟩ (by decide)
  have h6 := matched_allocate_eq 2 1 4098 ⟨4096, 4, [⟨1, 0⟩], [⟨0, 2⟩, ⟨2, 2⟩]⟩ h5
    ⟨by decide, by decide⟩ (by decide)
  exact matched_deallocate_eq 4096 2 1 ⟨4096, 4, [⟨0, 2⟩, ⟨1, 0⟩], [⟨2, 2⟩]⟩
    [(4098, 2)] h6 (by decide) (by decide)

/-- C9 (fails on the code): in a state reached by matched calls, the matched
`deallocate(4098, 2, 1)` completes and leaves the free list
`[{0, 2}, {1, 0}, {2, 2}]`, in which the distinct blocks `{0, 2}` and `{2, 2}`
are adjacent (`0 + 2 == 2`): the empty block `{1, 0}` sorted between them keeps
the merge loop from joining them. -/
theorem C9_adjacent_free_blocks_after_deallocate :
    Matched any_request 4096 4 ⟨4096, 4, [⟨0, 2⟩, ⟨1, 0⟩], [⟨2, 2⟩]⟩ [(4098, 2)] ∧
    do_deallocate ⟨4096, 4, [⟨0, 2⟩, ⟨1, 0⟩], [⟨2, 2⟩]⟩ 4098 2 1
      = (.ok (), ⟨4096, 4, [⟨0, 2⟩, ⟨1, 0⟩, ⟨2, 2⟩], []⟩) ∧
    ¬ no_adjacent [⟨0, 2⟩, ⟨1, 0⟩, ⟨2, 2⟩] :=
  ⟨matched_empty_free_block, by decide, by decide⟩

/-! ## Growth of `Vector` -/

/-- What a `reserve` that returns normally leaves: the size is kept, and the
capacity is the old one when it was large enough and the requested one
otherwise. -/
theorem vector_reserve_ok {T : Type} {sizeof_T alignof_T : Nat} {mr mr2 : MemoryResource}
    {v v2 : Vector T} {new_cap : Nat}
    (h : Vector.reserve sizeof_T alignof_T mr v new_cap = (.ok (), mr2, v2)) :
    v2.size_ = v.size_ ∧
    ((new_cap ≤ v.capacity_ ∧ v2.capacity_ = v.capacity_) ∨
      (v.capacity_ < new_cap ∧ v2.capacity_ = new_cap)) := by
  unfold Vector.reserve at h
  by_cases hc : new_cap ≤ v.capacity_
  · rw [if_pos hc] at h
    simp only [Prod.mk.injEq, true_and] at h
    rw [← h.2]
    exact ⟨rfl, Or.inl ⟨hc, rfl⟩⟩
  · rw [if_neg hc] at h
    generalize allocator_allocate sizeof_T alignof_T mr new_cap = r at h
    obtain ⟨o, mr1⟩ := r
    cases o with
    | error e => simp at h
    | ok new_data =>
      simp only at h
      by_cases hd : v.data_ ≠ 0
      · rw [if_pos hd] at h
        generalize allocator_deallocate sizeof_T alignof_T mr1 v.data_ v.capacity_ = r2 at h
        obtain ⟨o2, mr3⟩ := r2
        cases o2 with
        | error e => simp at h
        | ok u =>
          simp only [Prod.mk.injEq, true_and] at h
          rw [← h.2]
          exact ⟨rfl, Or.inr ⟨by omega, rfl⟩⟩
      · rw [if_neg hd] at h
        simp only [Prod.mk.injEq, true_and] at h
        rw [← h.2]
        exact ⟨rfl, Or.inr ⟨by omega, rfl⟩⟩

/-- The common body of `push_back` and `emplace_back` keeps the growth law. -/
theorem vector_grown_step {T : Type} {sizeof_T alignof_T : Nat} {mr mr2 : MemoryResource}
    {v v2 : Vector T} {value : T} {n : Nat} (hg : v.grown n)
    (h : Vector.push_back sizeof_T alignof_T mr v value = (.ok (), mr2, v2)) :
    v2.grown (n + 1) := by
  obtain ⟨hsz, hcapW, hcap⟩ := hg
  unfold Vector.push_back at h
  by_cases hfull : v.size_ = v.capacity_
  · rw [if_pos hfull] at h
    generalize hr : Vector.reserve sizeof_T alignof_T mr v
      (if v.capacity_ ≠ 0 then (v.capacity_ * 2) % W else 1) = r at h
    obtain ⟨o, mr1, v1⟩ := r
    cases o with
    | error e => simp at h
    | ok u =>
      cases u
      obtain ⟨hs1, hc1⟩ := vector_reserve_ok hr
      simp only at h
      by_cases hlt : v1.size_ < v1.capacity_
      · rw [if_pos hlt] at h
        simp only [Prod.mk.injEq, true_and] at h
        rw [← h.2]
        unfold Vector.grown
        simp only
        rcases hcap with ⟨hn0, hc0⟩ | ⟨hnpos, j, hj, hle, hlt2⟩
        · -- the first insertion: reserve(1)
          rw [if_neg (by simpa using hc0)] at hc1
          have hcap1 : v1.capacity_ = 1 := by omega
          have hW : (1 : Nat) < W := by decide
          rw [hs1, hsz, hn0, hcap1]
          exact ⟨Nat.mod_eq_of_lt hW, hW, Or.inr ⟨by omega, 0, rfl, by omega, by omega⟩⟩
        · -- a full storage of 2 ^ j slots: reserve(2 ^ (j + 1))
          have hcne : v.capacity_ ≠ 0 := by omega
          rw [if_pos hcne] at hc1
          have hjW : j < 64 := by
            by_contra hge
            have : 2 ^ 64 ≤ 2 ^ j := Nat.pow_le_pow_right (by decide) (Nat.le_of_not_lt hge)
            unfold W at hcapW
            omega
          have hpow : 2 ^ (j + 1) = 2 ^ j * 2 := Nat.pow_succ 2 j
          by_cases hwrap : 2 ^ (j + 1) < W
          · have hnew : (v.capacity_ * 2) % W = 2 ^ (j + 1) := by
              rw [hj, ← hpow]
              exact Nat.mod_eq_of_lt hwrap
            rw [hnew] at hc1
            have hcap1 : v1.capacity_ = 2 ^ (j + 1) := by omega
            have hn : n = 2 ^ j := by omega
            rw [hs1, hsz, hcap1]
            refine ⟨Nat.mod_eq_of_lt (by omega), hwrap, Or.inr ⟨by omega, j + 1, rfl, ?_, ?_⟩⟩
            · omega
            · omega
          · exfalso
            have h64 : 2 ^ (j + 1) ≤ 2 ^ 64 := Nat.pow_le_pow_right (by decide) (by omega)
            have hnew : (v.capacity_ * 2) % W = 0 := by
              rw [hj, ← hpow]
              have : 2 ^ (j + 1) = W := by unfold W at hwrap ⊢; omega
              rw [this]
              exact Nat.mod_self W
            rw [hnew] at hc1
            omega
      · rw [if_neg hlt] at h
        simp at h
  · rw [if_neg hfull] at h
    simp only at h
    by_cases hlt : v.size_ < v.capacity_
    · rw [if_pos hlt] at h
      simp only [Prod.mk.injEq, true_and] at h
      rw [← h.2]
      unfold Vector.grown
      simp only
      rcases hcap with ⟨hn0, hc0⟩ | ⟨hnpos, j, hj, hle, hlt2⟩
      · omega
      · rw [hsz]
        exact ⟨Nat.mod_eq_of_lt (by omega), hcapW, Or.inr ⟨by omega, j, hj, by omega, by omega⟩⟩
    · rw [if_neg hlt] at h
      simp at h

theorem vector_grown_insert_all {T : Type} {sizeof_T alignof_T : Nat} (calls : List (Insertion T)) :
    ∀ (mr mr2 : MemoryResource) (v v2 : Vector T) (n : Nat), v.grown n →
      Vector.insert_all sizeof_T alignof_T mr v calls = (.ok (), mr2, v2) →
      v2.grown (n + calls.length) := by
  induction calls with
  | nil =>
    intro mr mr2 v v2 n hg h
    simp only [Vector.insert_all, Prod.mk.injEq, true_and] at h
    rw [← h.2]
    exact hg
  | cons c rest ih =>
    intro mr mr2 v v2 n hg h
    cases c with
    | push_back value =>
      unfold Vector.insert_all at h
      generalize hr : Vector.push_back sizeof_T alignof_T mr v value = r at h
      obtain ⟨o, mr1, v1⟩ := r
      cases o with
      | error e => simp at h
      | ok u =>
        cases u
        have := ih mr1 mr2 v1 v2 (n + 1) (vector_grown_step hg hr) h
        rw [List.length_cons]
        rw [show n + (rest.length + 1) = n + 1 + rest.length by omega]
        exact this
    | emplace_back value =>
      unfold Vector.insert_all at h
      generalize hr : Vector.emplace_back sizeof_T alignof_T mr v value = r at h
      obtain ⟨o, mr1, v1⟩ := r
      cases o with
      | error e => simp at h
      | ok u =>
        cases u
        have hr2 : Vector.push_back sizeof_T alignof_T mr v value = (.ok (), mr1, v1) := hr
        have := ih mr1 mr2 v1 v2 (n + 1) (vector_grown_step hg hr2) h
        rw [List.length_cons]
        rw [show n + (rest.length + 1) = n + 1 + rest.length by omega]
        exact this

/-- A power of two between `n` and `2 * n` is the smallest power of two that is
at least `n`. -/
theorem smallest_pow2_ge_of_lt {j n : Nat} (h1 : n ≤ 2 ^ j) (h2 : 2 ^ j < 2 * n) :
    smallest_pow2_ge (2 ^ j) n := by
  refine ⟨⟨j, rfl⟩, h1, ?_⟩
  intro i hi
  by_contra hlt
  have hlt : 2 ^ i < 2 ^ j := Nat.lt_of_not_le hlt
  have hij : i < j := (Nat.pow_lt_pow_iff_right (by decide)).mp hlt
  have h3 : 2 ^ (i + 1) ≤ 2 ^ j := Nat.pow_le_pow_right (by decide) hij
  rw [Nat.pow_succ] at h3
  omega

/-- C10: starting from an empty `Vector` of capacity 0, after `k >= 1`
sequential `push_back` / `emplace_back` calls that all return normally (every
arena allocation succeeds), `size()` is `k` and `capacity()` is the smallest
power of two that is at least `k`. -/
theorem C10_growth_law {T : Type} (sizeof_T alignof_T : Nat) (mr0 mr : MemoryResource)
    (calls : List (Insertion T)) (v : Vector T) (hk : 1 ≤ calls.length)
    (hok : Vector.insert_all sizeof_T alignof_T mr0 (Vector.create T) calls = (.ok (), mr, v)) :
    v.size = calls.length ∧ smallest_pow2_ge v.capacity calls.length := by
  have h0 : (Vector.create T).grown 0 :=
    ⟨rfl, show 0 < W by decide, Or.inl ⟨rfl, rfl⟩⟩
  obtain ⟨hs, _, hc⟩ := vector_grown_insert_all calls mr0 mr (Vector.create T) v 0 h0 hok
  rw [Nat.zero_add] at hs hc
  refine ⟨hs, ?_⟩
  rcases hc with ⟨h, _⟩ | ⟨_, j, hj, h1, h2⟩
  · omega
  · unfold Vector.capacity
    rw [hj]
    exact smallest_pow2_ge_of_lt h1 h2

/-- C10 on the calls of the test `CapacityGrowth`, the third one made with
`emplace_back`: three insertions of `int` on an arena of 2048 bytes all return
normally and leave size 3 and capacity 4. -/
theorem C10_growth_law_witness :
    (1 ≤ [Insertion.push_back 1, Insertion.push_back 2, Insertion.emplace_back 3].length ∧
      Vector.insert_all 4 4 (MemoryResource.create 4096 2048) (Vector.create Nat)
        [.push_back 1, .push_back 2, .emplace_back 3]
        = (.ok (), ⟨4096, 2048, [⟨0, 12⟩, ⟨28, 2020⟩], [⟨12, 16⟩]⟩, ⟨4108, 3, 4, [1, 2, 3]⟩)) ∧
    (⟨4108, 3, 4, [1, 2, 3]⟩ : Vector Nat).size = 3 ∧
    smallest_pow2_ge (⟨4108, 3, 4, [1, 2, 3]⟩ : Vector Nat).capacity 3 :=
  ⟨⟨by decide, by decide⟩,
    C10_growth_law 4 4 (MemoryResource.create 4096 2048)
      ⟨4096, 2048, [⟨0, 12⟩, ⟨28, 2020⟩], [⟨12, 16⟩]⟩
      [.push_back 1, .push_back 2, .emplace_back 3] ⟨4108, 3, 4, [1, 2, 3]⟩
      (by decide) (by decide)⟩

/-! ## `reserve`, `clear` and `operator[]` -/

/-- The shape of a `reserve` that has to grow the storage and returns normally:
the allocator handed out a new block, the live objects were moved to it in
order, the old block, if any, was returned, and the new block and the new
capacity were adopted. -/
theorem vector_reserve_grow {T : Type} {sizeof_T alignof_T : Nat} {mr mr2 : MemoryResource}
    {v v2 : Vector T} {new_cap : Nat} (hc : v.capacity_ < new_cap)
    (h : Vector.reserve sizeof_T alignof_T mr v new_cap = (.ok (), mr2, v2)) :
    ∃ new_data mr1, allocator_allocate sizeof_T alignof_T mr new_cap = (.ok new_data, mr1) ∧
      v2 = { v with data_ := new_data, capacity_ := new_cap,
                    objects := v.objects.take v.size_ } ∧
      (v.data_ = 0 → mr2 = mr1) ∧
      (v.data_ ≠ 0 →
        allocator_deallocate sizeof_T alignof_T mr1 v.data_ v.capacity_ = (.ok (), mr2)) := by
  unfold Vector.reserve at h
  rw [if_neg (by omega)] at h
  generalize hr : allocator_allocate sizeof_T alignof_T mr new_cap = r at h
  obtain ⟨o, mr1⟩ := r
  cases o with
  | error e => simp at h
  | ok new_data =>
    simp only at h
    refine ⟨new_data, mr1, rfl, ?_⟩
    by_cases hd : v.data_ ≠ 0
    · rw [if_pos hd] at h
      generalize hr2 : allocator_deallocate sizeof_T alignof_T mr1 v.data_ v.capacity_ = r2 at h
      obtain ⟨o2, mr3⟩ := r2
      cases o2 with
      | error e => simp at h
      | ok u =>
        cases u
        simp only [Prod.mk.injEq, true_and] at h
        refine ⟨h.2.symm, fun h0 => absurd h0 hd, fun _ => ?_⟩
        rw [h.1]
    · rw [if_neg hd] at h
      simp only [Prod.mk.injEq, true_and] at h
      exact ⟨h.2.symm, fun _ => h.1.symm, fun h0 => absurd h0 hd⟩

/-- C11: a `reserve(n)` that returns normally leaves the capacity equal to the
maximum of the old capacity and `n`, so it never shrinks the capacity; and a
following `reserve(m)` with `m <= n` returns normally leaving the `Vector` and
the arena exactly as the first call left them (it makes no allocator call). -/
theorem C11_reserve_max_and_idempotent {T : Type} (sizeof_T alignof_T : Nat)
    (mr mr2 : MemoryResource) (v v2 : Vector T) (n : Nat)
    (h : Vector.reserve sizeof_T alignof_T mr v n = (.ok (), mr2, v2)) :
    v2.capacity = max v.capacity n ∧ v.capacity ≤ v2.capacity ∧
    ∀ m, m ≤ n → Vector.reserve sizeof_T alignof_T mr2 v2 m = (.ok (), mr2, v2) := by
  obtain ⟨_, hcap⟩ := vector_reserve_ok h
  unfold Vector.capacity
  have hmax : v2.capacity_ = max v.capacity_ n := by
    rcases hcap with ⟨h1, h2⟩ | ⟨h1, h2⟩
    · rw [h2, Nat.max_eq_left h1]
    · rw [h2, Nat.max_eq_right (Nat.le_of_lt h1)]
  refine ⟨hmax, by rw [hmax]; exact Nat.le_max_left _ _, ?_⟩
  intro m hm
  have hle : m ≤ v2.capacity_ := by
    rw [hmax]
    exact Nat.le_trans hm (Nat.le_max_right _ _)
  unfold Vector.reserve
  rw [if_pos hle]

/-- C11 on the call of the test `ReserveIncreasesCapacity`: `reserve(50)` on an
empty `Vector<int>` over an arena of 4096 bytes returns normally, and
`reserve(20)` after it changes nothing. -/
theorem C11_reserve_max_and_idempotent_witness :
    Vector.reserve 4 4 (MemoryResource.create 4096 4096) (Vector.create Nat) 50
      = (.ok (), ⟨4096, 4096, [⟨200, 3896⟩], [⟨0, 200⟩]⟩, ⟨4096, 0, 50, []⟩) ∧
    (⟨4096, 0, 50, []⟩ : Vector Nat).capacity = max (Vector.create Nat).capacity 50 ∧
    (Vector.create Nat).capacity ≤ (⟨4096, 0, 50, []⟩ : Vector Nat).capacity ∧
    ∀ m, m ≤ 50 →
      Vector.reserve 4 4 ⟨4096, 4096, [⟨200, 3896⟩], [⟨0, 200⟩]⟩ (⟨4096, 0, 50, []⟩ : Vector Nat) m
        = (.ok (), ⟨4096, 4096, [⟨200, 3896⟩], [⟨0, 200⟩]⟩, ⟨4096, 0, 50, []⟩) :=
  ⟨by decide,
    C11_reserve_max_and_idempotent 4 4 (MemoryResource.create 4096 4096)
      ⟨4096, 4096, [⟨200, 3896⟩], [⟨0, 200⟩]⟩ (Vector.create Nat) ⟨4096, 0, 50, []⟩ 50
      (by decide)⟩

/-- C13: when `reserve(n)` has to grow the storage and the arena cannot satisfy
the request for `n * sizeof(T)` bytes, `reserve(n)` throws `std::bad_alloc`
and leaves the `Vector` (size, capacity, storage block, objects) and the arena
(both lists) exactly as they were; the same holds for `push_back` and
`emplace_back` on a full `Vector`, whose growth request is that `reserve`. -/
theorem C13_growth_is_atomic {T : Type} (sizeof_T alignof_T : Nat) (mr : MemoryResource)
    (v : Vector T) (n : Nat) (e : Error) (hn : v.capacity_ < n) (hcount : n ≤ (W - 1) / sizeof_T)
    (hfail : (do_allocate mr (n * sizeof_T) alignof_T).1 = .error e) :
    Vector.reserve sizeof_T alignof_T mr v n = (.error .bad_alloc, mr, v) ∧
    (v.size_ = v.capacity_ → n = (if v.capacity_ ≠ 0 then (v.capacity_ * 2) % W else 1) →
      ∀ value : T,
        Vector.push_back sizeof_T alignof_T mr v value = (.error .bad_alloc, mr, v) ∧
        Vector.emplace_back sizeof_T alignof_T mr v value = (.error .bad_alloc, mr, v)) := by
  have hnone := (do_allocate_error hfail).2.2
  have halloc : allocator_allocate sizeof_T alignof_T mr n = (.error .bad_alloc, mr) := by
    unfold allocator_allocate
    rw [if_neg (by omega), do_allocate_none hnone]
  have hres : Vector.reserve sizeof_T alignof_T mr v n = (.error .bad_alloc, mr, v) := by
    unfold Vector.reserve
    rw [if_neg (by omega), halloc]
  refine ⟨hres, ?_⟩
  intro hfull hgrow value
  rw [hgrow] at hres
  constructor
  · unfold Vector.push_back
    rw [if_pos hfull, hres]
  · unfold Vector.emplace_back
    rw [if_pos hfull, hres]

/-- C13 on an arena of 2 bytes and an empty `Vector<int>`: the 4 bytes of the
first growth cannot be allocated. -/
theorem C13_growth_is_atomic_witness :
    ((Vector.create Nat).capacity_ < 1 ∧ 1 ≤ (W - 1) / 4 ∧
      (do_allocate (MemoryResource.create 4096 2) (1 * 4) 4).1 = .error .bad_alloc) ∧
    Vector.reserve 4 4 (MemoryResource.create 4096 2) (Vector.create Nat) 1
      = (.error .bad_alloc, MemoryResource.create 4096 2, Vector.create Nat) ∧
    Vector.push_back 4 4 (MemoryResource.create 4096 2) (Vector.create Nat) 7
      = (.error .bad_alloc, MemoryResource.create 4096 2, Vector.create Nat) ∧
    Vector.emplace_back 4 4 (MemoryResource.create 4096 2) (Vector.create Nat) 7
      = (.error .bad_alloc, MemoryResource.create 4096 2, Vector.create Nat) :=
  have h := C13_growth_is_atomic 4 4 (MemoryResource.create 4096 2) (Vector.create Nat) 1
    .bad_alloc (by decide) (by decide) (by decide)
  ⟨⟨by decide, by decide, by decide⟩, h.1, h.2 rfl rfl 7⟩

/-- When no destructor calls the arena, the loop of `clear` leaves it as it is. -/
theorem destroy_all_plain {T : Type} (E : Element T)
    (hplain : ∀ m x, E.destroy m x = (.ok (), m)) (mr : MemoryResource) (l : List T) :
    destroy_all E mr l = (.ok (), mr) := by
  induction l with
  | nil => rfl
  | cons x rest ih =>
    unfold destroy_all
    rw [hplain]
    exact ih

/-- C14 (as stated, fails): a `Vector<std::pmr::string>` over a fresh arena of
4096 bytes into which a string of 37 characters is pushed holds the storage
block `{0, 40}` and the element holds the block `{40, 38}` of the same arena;
`clear()` returns the block of the element to the arena and so changes both
lists of the arena. -/
theorem C14_clear_returns_element_storage :
    Aware.push_back Element.pmr_string 40 8 (MemoryResource.create 4096 4096)
        (Vector.create PmrString) (.object ⟨List.replicate 37 'x', none⟩)
      = (.ok (), ⟨4096, 4096, [⟨78, 4018⟩], [⟨0, 40⟩, ⟨40, 38⟩]⟩,
          ⟨4096, 1, 1, [⟨List.replicate 37 'x', some (4136, 38)⟩]⟩) ∧
    Aware.clear Element.pmr_string ⟨4096, 4096, [⟨78, 4018⟩], [⟨0, 40⟩, ⟨40, 38⟩]⟩
        ⟨4096, 1, 1, [⟨List.replicate 37 'x', some (4136, 38)⟩]⟩
      = (.ok (), ⟨4096, 4096, [⟨40, 4056⟩], [⟨0, 40⟩]⟩, ⟨4096, 0, 1, []⟩) ∧
    ([⟨40, 4056⟩] : List Block) ≠ [⟨78, 4018⟩] ∧
    ([⟨0, 40⟩] : List Block) ≠ [⟨0, 40⟩, ⟨40, 38⟩] :=
  ⟨by decide, by decide, by decide, by decide⟩

/-- C14 (amended): `clear()` on a `Vector` whose `size_` slots hold live objects
runs the destructor of each of these `size_` objects once, in index order, and
calls neither `allocate` nor `deallocate` itself: when the destructors return,
`clear()` returns, the arena is as the destructors leave it, no live object is
left (a counter of live objects that was `size_` is 0), `size_` is 0, and
`capacity_` and the storage block are unchanged; when the destructor of the
element type makes no call on the arena, the arena is unchanged. -/
theorem C14_clear_destroys_elements {T : Type} (E : Element T) (mr : MemoryResource)
    (v : Vector T) (hlive : v.objects.length = v.size_) :
    (∀ mr1, destroy_all E mr v.objects = (.ok (), mr1) →
      ∃ v1, Aware.clear E mr v = (.ok (), mr1, v1) ∧ v1.objects.length = 0 ∧ v1.size = 0 ∧
        v1.capacity = v.capacity ∧ v1.data_ = v.data_) ∧
    ((∀ m x, E.destroy m x = (.ok (), m)) →
      ∃ v1, Aware.clear E mr v = (.ok (), mr, v1) ∧ v1.objects.length = 0 ∧ v1.size = 0 ∧
        v1.capacity = v.capacity ∧ v1.data_ = v.data_) := by
  have htake : v.objects.take v.size_ = v.objects := by
    rw [← hlive]
    exact List.take_length _
  have hdrop : (v.objects.drop v.size_).length = 0 := by
    rw [List.length_drop, hlive]
    exact Nat.sub_self _
  have key : ∀ mr1, destroy_all E mr v.objects = (.ok (), mr1) →
      ∃ v1, Aware.clear E mr v = (.ok (), mr1, v1) ∧ v1.objects.length = 0 ∧ v1.size = 0 ∧
        v1.capacity = v.capacity ∧ v1.data_ = v.data_ := by
    intro mr1 h
    refine ⟨{ v with objects := v.objects.drop v.size_, size_ := 0 }, ?_, hdrop, rfl, rfl, rfl⟩
    unfold Aware.clear
    rw [htake, h]
  exact ⟨key, fun hplain => key mr (destroy_all_plain E hplain mr v.objects)⟩

/-- C14 (amended) on Scenario E: two `Counter` objects in a `Vector` over an
arena of 4096 bytes (two live objects, capacity 2), then `clear()`: it returns,
no live object is left, the size is 0, the capacity is still 2, and the arena is
unchanged. -/
theorem C14_clear_destroys_elements_witness :
    (Aware.insert_all (Element.plain Nat) 4 4 (MemoryResource.create 4096 4096)
        (Vector.create Nat) [.object 1, .object 2]
      = (.ok (), ⟨4096, 4096, [⟨0, 4⟩, ⟨12, 4084⟩], [⟨4, 8⟩]⟩, ⟨4100, 2, 2, [1, 2]⟩) ∧
      (⟨4100, 2, 2, [1, 2]⟩ : Vector Nat).objects.length = 2) ∧
    ∃ v1, Aware.clear (Element.plain Nat) ⟨4096, 4096, [⟨0, 4⟩, ⟨12, 4084⟩], [⟨4, 8⟩]⟩
        ⟨4100, 2, 2, [1, 2]⟩
      = (.ok (), ⟨4096, 4096, [⟨0, 4⟩, ⟨12, 4084⟩], [⟨4, 8⟩]⟩, v1) ∧
      v1.objects.length = 0 ∧ v1.size = 0 ∧ v1.capacity = 2 ∧ v1.data_ = 4100 :=
  ⟨⟨by decide, by decide⟩,
    (C14_clear_destroys_elements (Element.plain Nat)
      ⟨4096, 4096, [⟨0, 4⟩, ⟨12, 4084⟩], [⟨4, 8⟩]⟩ ⟨4100, 2, 2, [1, 2]⟩ (by decide)).2
      (fun _ _ => rfl)⟩

/-- C16: on a `Vector` whose slots below `size_` hold live objects,
`operator[](idx)` yields an element exactly when `idx < size_`, and then it is
the object of slot `idx`; for `idx >= size_` the `assert` fails and no slot is
returned, in particular for every index right after `clear()`, which keeps the
capacity. -/
theorem C16_index_checks_bounds {T : Type} (v : Vector T) (idx : Nat)
    (hlive : v.size_ ≤ v.objects.length) :
    ((∃ x, v.index idx = .ok x) ↔ idx < v.size_) ∧
    (idx < v.size_ → ∃ x, v.objects.get? idx = some x ∧ v.index idx = .ok x) ∧
    (v.size_ ≤ idx → v.index idx = .error .assertion_failure) ∧
    (v.clear.index idx = .error .assertion_failure ∧ v.clear.capacity = v.capacity) := by
  have hin : idx < v.size_ → ∃ x, v.objects.get? idx = some x ∧ v.index idx = .ok x := by
    intro hlt
    cases hg : v.objects.get? idx with
    | none =>
      have := List.get?_eq_none.mp hg
      omega
    | some x =>
      refine ⟨x, rfl, ?_⟩
      unfold Vector.index
      rw [if_pos hlt, hg]
  have hout : v.size_ ≤ idx → v.index idx = .error .assertion_failure := by
    intro hge
    unfold Vector.index
    rw [if_neg (by omega)]
  refine ⟨⟨?_, fun hlt => ?_⟩, hin, hout, ?_, rfl⟩
  · rintro ⟨x, hx⟩
    by_contra hge
    rw [hout (by omega)] at hx
    simp at hx
  · obtain ⟨x, _, hx⟩ := hin hlt
    exact ⟨x, hx⟩
  · unfold Vector.index
    rw [if_neg (by simp [Vector.clear])]

/-- C16 on a `Vector` of capacity 4 that holds the two objects 10 and 20:
index 1 yields 20, index 2 fails the `assert`, and so does index 0 after
`clear()`. -/
theorem C16_index_checks_bounds_witness :
    (⟨4108, 2, 4, [10, 20]⟩ : Vector Nat).index 1 = .ok 20 ∧
    (⟨4108, 2, 4, [10, 20]⟩ : Vector Nat).index 2 = .error .assertion_failure ∧
    (⟨4108, 2, 4, [10, 20]⟩ : Vector Nat).clear.index 0 = .error .assertion_failure ∧
    (⟨4108, 2, 4, [10, 20]⟩ : Vector Nat).clear.capacity = 4 :=
  have h1 := C16_index_checks_bounds (⟨4108, 2, 4, [10, 20]⟩ : Vector Nat) 1 (by decide)
  have h2 := C16_index_checks_bounds (⟨4108, 2, 4, [10, 20]⟩ : Vector Nat) 2 (by decide)
  have h0 := C16_index_checks_bounds (⟨4108, 2, 4, [10, 20]⟩ : Vector Nat) 0 (by decide)
  ⟨by decide, h2.2.2.1 (by decide), h0.2.2.2.1, h0.2.2.2.2⟩

/-! ## Bookkeeping of single calls -/

/-- The split bookkeeping when nothing wraps (free blocks that end below
`2 ^ 64`, a request with `bytes + a <= 2 ^ 64`): a successful `do_allocate`
takes the first fitting block `{o, s}` out of the free list, puts back the
padding `{o, p}` when `p > 0` and the remainder `{o + p + bytes, s - p - bytes}`
when it is not empty, appends `{o + p, bytes}` to the allocated list, and the
total of the free bytes drops by exactly `bytes`. -/
theorem split_bookkeeping_bounded {m : MemoryResource} {bytes a p : Nat}
    (hfree : ∀ b ∈ m.free_list_, b.offset + b.size < W) (ha : 0 < a) (haW : a < W)
    (hs : bytes + a ≤ W) (hok : (do_allocate m bytes a).1 = .ok p) :
    ∃ pre post it pad, m.free_list_ = pre ++ it :: post ∧
      pad = spec_align_up it.offset a - it.offset ∧ pad + bytes ≤ it.size ∧
      (do_allocate m bytes a).2.free_list_ =
        pre ++ post ++ (if 0 < pad then [⟨it.offset, pad⟩] else []) ++
          (if 0 < it.size - pad - bytes then
            [⟨it.offset + pad + bytes, it.size - pad - bytes⟩] else []) ∧
      (do_allocate m bytes a).2.allocated_list_ = m.allocated_list_ ++ [⟨it.offset + pad, bytes⟩] ∧
      total_bytes (do_allocate m bytes a).2.free_list_ + bytes = total_bytes m.free_list_ := by
  obtain ⟨pre, post, it, e, _, hfit, _, hst⟩ := do_allocate_ok hfree ha haW hs hok
  have hge := spec_align_up_ge it.offset a
  unfold spec_fits at hfit
  refine ⟨pre, post, it, _, e, rfl, hfit, ?_, ?_, ?_⟩
  · rw [hst]
    simp only
    rw [show it.size - (spec_align_up it.offset a - it.offset) - bytes
      = it.size - (spec_align_up it.offset a - it.offset + bytes) by omega,
      show it.offset + (spec_align_up it.offset a - it.offset) + bytes
      = spec_align_up it.offset a + bytes by omega]
    split_ifs <;> simp
  · rw [hst]
    simp only
    rw [show it.offset + (spec_align_up it.offset a - it.offset)
      = spec_align_up it.offset a by omega]
  · rw [hst, e]
    simp only
    rw [total_bytes_push_if, total_bytes_push_if, total_bytes_append, total_bytes_append,
      total_bytes_cons]
    omega

/-- C18 (fails on the code): on the free list `[{1, 15}]` the successful
`allocate(2^64 - 1, 2)` chooses the block `{1, 15}` with padding 1; no bytes
remain after the allocation (`15 - 1 - (2^64 - 1)` is not positive), and yet
the new free list is `[{1, 1}, {1, 15}]`: a remainder `{1, 15}` is inserted and
the total of the free bytes rises from 15 to 16 instead of dropping by the
size. -/
theorem C18_split_with_wrapped_remainder :
    find_fit (2 ^ 64 - 1) 2 [⟨1, 15⟩] = some (0, ⟨1, 15⟩) ∧
    spec_align_up 1 2 - 1 = 1 ∧
    ¬ ((0 : Int) < 15 - 1 - (2 ^ 64 - 1)) ∧
    do_allocate ⟨4096, 16, [⟨1, 15⟩], [⟨0, 1⟩]⟩ (2 ^ 64 - 1) 2 =
      (.ok 4098, ⟨4096, 16, [⟨1, 1⟩, ⟨1, 15⟩], [⟨0, 1⟩, ⟨2, 2 ^ 64 - 1⟩]⟩) ∧
    total_bytes [⟨1, 15⟩] = 15 ∧ total_bytes [⟨1, 1⟩, ⟨1, 15⟩] = 16 :=
  ⟨by decide, by decide, by decide, by decide, by decide, by decide⟩

/-- C19: for every arena state (with a buffer that is not null) and every
address inside `[buffer_, buffer_ + total_size_)`, `deallocate` returns
normally whatever the size and whether or not `{offset, size}` is in the
allocated list: `{offset, size}` is pushed at the end of the free list, which
is then sorted and merged, and the allocated list loses its first entry equal
to `{offset, size}` when there is one and is unchanged otherwise. -/
theorem C19_mismatched_deallocate_accepted (m : MemoryResource) (p bytes al : Nat)
    (hb : 0 < m.buffer_) (h1 : m.buffer_ ≤ p) (h2 : p < m.buffer_ + m.total_size_) :
    do_deallocate m p bytes al =
      (.ok (), { m with
        free_list_ := merge_pass (sort_by_offset (m.free_list_ ++ [⟨p - m.buffer_, bytes⟩])),
        allocated_list_ := m.allocated_list_.erase ⟨p - m.buffer_, bytes⟩ }) ∧
    ((⟨p - m.buffer_, bytes⟩ : Block) ∉ m.allocated_list_ →
      m.allocated_list_.erase ⟨p - m.buffer_, bytes⟩ = m.allocated_list_) ∧
    ((⟨p - m.buffer_, bytes⟩ : Block) ∈ m.allocated_list_ →
      ∃ pre post, (⟨p - m.buffer_, bytes⟩ : Block) ∉ pre ∧
        m.allocated_list_ = pre ++ ⟨p - m.buffer_, bytes⟩ :: post ∧
        m.allocated_list_.erase ⟨p - m.buffer_, bytes⟩ = pre ++ post) := by
  have hok : (do_deallocate m p bytes al).1 = .ok () := do_deallocate_inside hb h1 h2
  have hst := (do_deallocate_ok (by omega) hok).2.2
  refine ⟨?_, List.erase_of_not_mem, List.exists_erase_eq⟩
  rw [← hst, ← hok]

/-- C19 on a second `deallocate` of the same block: after `allocate(100, 8)`
and `deallocate` of it the arena of 1024 bytes is `[{0, 1024}]` / `[]`; the
same `deallocate` again returns normally, pushes `{0, 100}` to the free list
and leaves the allocated list unchanged. -/
theorem C19_mismatched_deallocate_accepted_witness :
    do_deallocate ⟨4096, 1024, [⟨0, 1024⟩], []⟩ 4096 100 8
      = (.ok (), ⟨4096, 1024, [⟨0, 1024⟩, ⟨0, 100⟩], []⟩) :=
  (C19_mismatched_deallocate_accepted ⟨4096, 1024, [⟨0, 1024⟩], []⟩ 4096 100 8
    (by decide) (by decide) (by decide)).1

/-- The arena of 2 bytes at address 4096 after `allocate(1, 1)`. -/
theorem matched_two_byte_arena :
    Matched any_request 4096 2 ⟨4096, 2, [⟨1, 1⟩], [⟨0, 1⟩]⟩ [(4096, 1)] :=
  matched_allocate_eq 1 1 4096 _ (Matched.fresh (by decide) (by decide))
    ⟨by decide, by decide⟩ (by decide)

/-- C20 (fails on the code): in the arena of 2 bytes reached by
`allocate(1, 1)`, the call `allocate(0, 2)` succeeds and returns the address
`4096 + 2`, whose offset 2 is not less than the total size 2; the immediately
following `deallocate` of that address with the same size and alignment throws
`std::runtime_error`. -/
theorem C20_address_past_the_end :
    Matched any_request 4096 2 ⟨4096, 2, [⟨1, 1⟩], [⟨0, 1⟩]⟩ [(4096, 1)] ∧
    any_request 0 2 ∧
    do_allocate ⟨4096, 2, [⟨1, 1⟩], [⟨0, 1⟩]⟩ 0 2
      = (.ok (4096 + 2), ⟨4096, 2, [⟨1, 1⟩], [⟨0, 1⟩, ⟨2, 0⟩]⟩) ∧
    ¬ (2 < 2) ∧
    (do_deallocate ⟨4096, 2, [⟨1, 1⟩], [⟨0, 1⟩, ⟨2, 0⟩]⟩ (4096 + 2) 0 2).1
      = .error .runtime_error :=
  ⟨matched_two_byte_arena, ⟨by decide, by decide⟩, by decide, by decide, by decide⟩

/-- For requests of positive size that do not wrap, every address handed out
in a matched run has an offset below the total size, and the immediately
following `deallocate` of it completes. -/
theorem allocate_then_deallocate_positive {buffer total : Nat} {m : MemoryResource}
    {out : List (Nat × Nat)} {bytes a p : Nat} (al : Nat)
    (h : Matched positive_request buffer total m out) (hr : positive_request bytes a)
    (hok : (do_allocate m bytes a).1 = .ok p) :
    buffer ≤ p ∧ p - buffer < total ∧
    (do_deallocate (do_allocate m bytes a).2 p bytes al).1 = .ok () := by
  have hm2 := Matched.allocate bytes a p h hr hok
  have hd := matched_deallocate_completes al hm2 (List.mem_cons_self _ _)
  obtain ⟨e1, e2, hb, _, _⟩ := matched_facts (fun _ _ hr => ⟨hr.1, hr.2.2⟩) hm2
  obtain ⟨k1, k2, _⟩ := do_deallocate_ok (by
    obtain ⟨e0, _, _, hinv, _⟩ := matched_facts (fun _ _ hr => ⟨hr.1, hr.2.2⟩) h
    obtain ⟨_, _, _, _, _, _, hp, _⟩ := do_allocate_ok (inv_free_lt hinv)
      (is_pow2_pos hr.1) (is_pow2_lt hr.1) hr.2.2 hok
    omega) hd
  rw [e1] at k1 k2
  rw [e2] at k2
  exact ⟨k1, k2, hd⟩

/-! ## Elements across reallocation -/

theorem do_allocate_frame (m : MemoryResource) (bytes a : Nat) :
    (do_allocate m bytes a).2.buffer_ = m.buffer_ ∧
    (do_allocate m bytes a).2.total_size_ = m.total_size_ := by
  cases hf : find_fit bytes a m.free_list_ with
  | none => rw [do_allocate_none hf]; exact ⟨rfl, rfl⟩
  | some r =>
    obtain ⟨i, it⟩ := r
    rw [do_allocate_some hf]
    exact ⟨rfl, rfl⟩

/-- A non-null address inside the buffer is accepted by `do_deallocate`. -/
theorem do_deallocate_accepts {m : MemoryResource} {p bytes al : Nat} (hp : p ≠ 0)
    (h1 : m.buffer_ ≤ p) (h2 : p < m.buffer_ + m.total_size_) :
    (do_deallocate m p bytes al).1 = .ok () := by
  unfold do_deallocate
  rw [if_neg hp]
  simp only
  rw [if_neg (by omega)]

/-- A `reserve` that returns normally on a `Vector` whose objects are the
`size_` live ones keeps the objects, in order. -/
theorem vector_reserve_objects {T : Type} {sizeof_T alignof_T : Nat} {mr mr2 : MemoryResource}
    {v v2 : Vector T} {new_cap : Nat} (hlive : v.objects.length = v.size_)
    (h : Vector.reserve sizeof_T alignof_T mr v new_cap = (.ok (), mr2, v2)) :
    v2.objects = v.objects ∧ v2.size_ = v.size_ := by
  by_cases hc : new_cap ≤ v.capacity_
  · unfold Vector.reserve at h
    rw [if_pos hc] at h
    simp only [Prod.mk.injEq, true_and] at h
    rw [← h.2]
    exact ⟨rfl, rfl⟩
  · obtain ⟨_, _, _, hv2, _, _⟩ := vector_reserve_grow (by omega) h
    rw [hv2]
    exact ⟨List.take_of_length_le (by omega), rfl⟩

/-- C12: for a `Vector` whose `size_` slots hold the live objects
`v_0 .. v_{size-1}` and whose storage block, if any, lies in the buffer of the
arena, and for every `n > capacity_` for which the allocation of `n` slots
succeeds, `reserve(n)` returns normally, the size is unchanged, the capacity is
`n`, the storage block is the newly allocated one, and `operator[](i)` yields
the same object `v_i` as before for every `i < size` (an iteration visits the
same objects in the same order). -/
theorem C12_reserve_keeps_elements {T : Type} (sizeof_T alignof_T : Nat)
    (mr mr1 : MemoryResource) (v : Vector T) (n new_data : Nat)
    (hlive : v.objects.length = v.size_) (hn : v.capacity_ < n)
    (halloc : allocator_allocate sizeof_T alignof_T mr n = (.ok new_data, mr1))
    (hblock : v.data_ = 0 ∨ (mr.buffer_ ≤ v.data_ ∧ v.data_ < mr.buffer_ + mr.total_size_)) :
    ∃ mr2 v2, Vector.reserve sizeof_T alignof_T mr v n = (.ok (), mr2, v2) ∧
      v2.size = v.size ∧ v2.capacity = n ∧ v2.data_ = new_data ∧ v2.iterate = v.iterate ∧
      ∀ i, i < v.size → ∃ x, v.objects.get? i = some x ∧ v.index i = .ok x ∧
        v2.index i = .ok x := by
  have hframe : mr1.buffer_ = mr.buffer_ ∧ mr1.total_size_ = mr.total_size_ := by
    unfold allocator_allocate at halloc
    split at halloc
    · simp at halloc
    · have := do_allocate_frame mr (n * sizeof_T) alignof_T
      rw [halloc] at this
      exact this
  have hres : ∃ mr2, Vector.reserve sizeof_T alignof_T mr v n
      = (.ok (), mr2, { v with data_ := new_data, capacity_ := n,
                               objects := v.objects.take v.size_ }) := by
    unfold Vector.reserve
    rw [if_neg (by omega), halloc]
    simp only
    by_cases hd : v.data_ ≠ 0
    · rw [if_pos hd]
      have hok : (allocator_deallocate sizeof_T alignof_T mr1 v.data_ v.capacity_).1 = .ok () := by
        unfold allocator_deallocate
        rcases hblock with h0 | ⟨h1, h2⟩
        · exact absurd h0 hd
        · exact do_deallocate_accepts hd (by rw [hframe.1]; exact h1)
            (by rw [hframe.1, hframe.2]; exact h2)
      generalize allocator_deallocate sizeof_T alignof_T mr1 v.data_ v.capacity_ = r2 at hok
      obtain ⟨o2, mr3⟩ := r2
      simp only at hok
      subst hok
      exact ⟨mr3, rfl⟩
    · rw [if_neg hd]
      exact ⟨mr1, rfl⟩
  obtain ⟨mr2, hres⟩ := hres
  have htake : v.objects.take v.size_ = v.objects := List.take_of_length_le (by omega)
  refine ⟨mr2, _, hres, rfl, rfl, rfl, ?_, ?_⟩
  · unfold Vector.iterate
    simp only
    rw [htake, htake]
  · intro i hi
    unfold Vector.size at hi
    cases hg : v.objects.get? i with
    | none =>
      have := List.get?_eq_none.mp hg
      omega
    | some x =>
      refine ⟨x, rfl, ?_, ?_⟩
      · unfold Vector.index
        rw [if_pos hi, hg]
      · unfold Vector.index
        simp only
        rw [if_pos hi, htake, hg]

/-- C12 on the test `MoveAndReallocationPreservesContent`: three strings in a
`Vector` of capacity 4 over an arena of 4096 bytes, then `reserve(20)`: the
call returns normally with a new storage block, size 3, and the three strings
at the same indices. -/
theorem C12_reserve_keeps_elements_witness :
    (Vector.insert_all 40 8 (MemoryResource.create 4096 4096) (Vector.create String)
        [.emplace_back "aaa", .emplace_back "bbb", .emplace_back "ccc"]
      = (.ok (), ⟨4096, 4096, [⟨0, 120⟩, ⟨280, 3816⟩], [⟨120, 160⟩]⟩,
          ⟨4216, 3, 4, ["aaa", "bbb", "ccc"]⟩) ∧
      allocator_allocate 40 8 ⟨4096, 4096, [⟨0, 120⟩, ⟨280, 3816⟩], [⟨120, 160⟩]⟩ 20
        = (.ok 4376,
          ⟨4096, 4096, [⟨0, 120⟩, ⟨1080, 3016⟩], [⟨120, 160⟩, ⟨280, 800⟩]⟩)) ∧
    ∃ mr2 v2,
      Vector.reserve 40 8 ⟨4096, 4096, [⟨0, 120⟩, ⟨280, 3816⟩], [⟨120, 160⟩]⟩
        (⟨4216, 3, 4, ["aaa", "bbb", "ccc"]⟩ : Vector String) 20 = (.ok (), mr2, v2) ∧
      v2.size = (⟨4216, 3, 4, ["aaa", "bbb", "ccc"]⟩ : Vector String).size ∧
      v2.capacity = 20 ∧ v2.data_ = 4376 ∧
      v2.iterate = (⟨4216, 3, 4, ["aaa", "bbb", "ccc"]⟩ : Vector String).iterate ∧
      ∀ i, i < (⟨4216, 3, 4, ["aaa", "bbb", "ccc"]⟩ : Vector String).size →
        ∃ x, (⟨4216, 3, 4, ["aaa", "bbb", "ccc"]⟩ : Vector String).objects.get? i = some x ∧
          (⟨4216, 3, 4, ["aaa", "bbb", "ccc"]⟩ : Vector String).index i = .ok x ∧
          v2.index i = .ok x :=
  ⟨⟨by decide, by decide⟩,
    C12_reserve_keeps_elements 40 8 ⟨4096, 4096, [⟨0, 120⟩, ⟨280, 3816⟩], [⟨120, 160⟩]⟩
      ⟨4096, 4096, [⟨0, 120⟩, ⟨1080, 3016⟩], [⟨120, 160⟩, ⟨280, 800⟩]⟩
      ⟨4216, 3, 4, ["aaa", "bbb", "ccc"]⟩ 20 4376 (by decide) (by decide) (by decide)
      (Or.inr ⟨by decide, by decide⟩)⟩

/-- The common body of `push_back` and `emplace_back` appends the value to the
objects of the `Vector`. -/
theorem vector_push_objects {T : Type} {sizeof_T alignof_T : Nat} {mr mr2 : MemoryResource}
    {v v2 : Vector T} {value : T} (hlive : v.objects.length = v.size_)
    (h : Vector.push_back sizeof_T alignof_T mr v value = (.ok (), mr2, v2)) :
    v2.objects = v.objects ++ [value] := by
  unfold Vector.push_back at h
  by_cases hfull : v.size_ = v.capacity_
  · rw [if_pos hfull] at h
    generalize hr : Vector.reserve sizeof_T alignof_T mr v
      (if v.capacity_ ≠ 0 then (v.capacity_ * 2) % W else 1) = r at h
    obtain ⟨o, mr1, v1⟩ := r
    cases o with
    | error e => simp at h
    | ok u =>
      cases u
      obtain ⟨ho, _⟩ := vector_reserve_objects hlive hr
      simp only at h
      split at h
      · simp only [Prod.mk.injEq, true_and] at h
        rw [← h.2, ← ho]
      · simp at h
  · rw [if_neg hfull] at h
    simp only at h
    split at h
    · simp only [Prod.mk.injEq, true_and] at h
      rw [← h.2]
    · simp at h

theorem vector_objects_insert_all {T : Type} {sizeof_T alignof_T : Nat}
    (calls : List (Insertion T)) :
    ∀ (mr mr2 : MemoryResource) (v v2 : Vector T) (n : Nat), v.grown n →
      v.objects.length = v.size_ →
      Vector.insert_all sizeof_T alignof_T mr v calls = (.ok (), mr2, v2) →
      v2.objects = v.objects ++ calls.map Insertion.value := by
  induction calls with
  | nil =>
    intro mr mr2 v v2 n _ _ h
    simp only [Vector.insert_all, Prod.mk.injEq, true_and] at h
    rw [← h.2]
    simp
  | cons c rest ih =>
    intro mr mr2 v v2 n hg hlive h
    have key : ∀ value, c.value = value →
        ∀ mr1 v1, Vector.push_back sizeof_T alignof_T mr v value = (.ok (), mr1, v1) →
        Vector.insert_all sizeof_T alignof_T mr1 v1 rest = (.ok (), mr2, v2) →
        v2.objects = v.objects ++ (c :: rest).map Insertion.value := by
      intro value hv mr1 v1 hp hrest
      have ho := vector_push_objects hlive hp
      have hg1 := vector_grown_step hg hp
      have hlive1 : v1.objects.length = v1.size_ := by
        rw [ho, hg1.1, List.length_append, hlive, hg.1]
        rfl
      rw [ih mr1 mr2 v1 v2 (n + 1) hg1 hlive1 hrest, ho, List.map_cons, hv]
      simp
    cases c with
    | push_back value =>
      unfold Vector.insert_all at h
      generalize hr : Vector.push_back sizeof_T alignof_T mr v value = r at h
      obtain ⟨o, mr1, v1⟩ := r
      cases o with
      | error e => simp at h
      | ok u =>
        cases u
        exact key value rfl mr1 v1 hr h
    | emplace_back value =>
      unfold Vector.insert_all at h
      generalize hr : Vector.emplace_back sizeof_T alignof_T mr v value = r at h
      obtain ⟨o, mr1, v1⟩ := r
      cases o with
      | error e => simp at h
      | ok u =>
        cases u
        exact key value rfl mr1 v1 hr h

/-! ## Insertions whose argument may be an element of the `Vector` -/

/-- For an element type that keeps no memory outside its objects the loop of
`reserve` leaves the arena as it is and moves the objects unchanged. -/
theorem relocate_all_plain {T : Type} (mr : MemoryResource) (l : List T) :
    relocate_all (Element.plain T) mr l = (.ok l, mr) := by
  induction l with
  | nil => rfl
  | cons x rest ih =>
    unfold relocate_all
    simp only [Element.plain]
    simp only [Element.plain] at ih
    rw [ih]

/-- For an element type that keeps no memory outside its objects, `reserve` is
the function `Vector.reserve`. -/
theorem aware_reserve_plain {T : Type} (s a : Nat) (mr : MemoryResource) (v : Vector T)
    (n : Nat) : Aware.reserve (Element.plain T) s a mr v n = Vector.reserve s a mr v n := by
  unfold Aware.reserve Vector.reserve
  split
  · rfl
  · generalize allocator_allocate s a mr n = ra
    obtain ⟨oa, m1⟩ := ra
    cases oa with
    | error e => rfl
    | ok new_data =>
      simp only [relocate_all_plain]

/-- For an element type that keeps no memory outside its objects and an
argument that is not an element of the `Vector`, `push_back` is the function
`Vector.push_back`. -/
theorem aware_push_back_plain {T : Type} (s a : Nat) (mr : MemoryResource) (v : Vector T)
    (x : T) :
    Aware.push_back (Element.plain T) s a mr v (.object x) = Vector.push_back s a mr v x := by
  unfold Aware.push_back Vector.push_back
  simp only
  by_cases hfull : v.size_ = v.capacity_
  · rw [if_pos hfull, if_pos hfull, aware_reserve_plain]
    unfold Aware.grown_capacity
    generalize Vector.reserve s a mr v (if v.capacity_ ≠ 0 then (v.capacity_ * 2) % W else 1) = r
    obtain ⟨o, mr1, v1⟩ := r
    cases o with
    | error e => rfl
    | ok u =>
      unfold Aware.construct_at_end
      simp only [Element.plain]
  · rw [if_neg hfull, if_neg hfull]
    unfold Aware.construct_at_end
    simp only [Element.plain]

/-- For an element type whose destructor makes no call on the arena, `clear`
is the function `Vector.clear` and leaves the arena as it is. -/
theorem aware_clear_plain {T : Type} (mr : MemoryResource) (v : Vector T) :
    Aware.clear (Element.plain T) mr v = (.ok (), mr, v.clear) := by
  unfold Aware.clear
  rw [destroy_all_plain (Element.plain T) (fun _ _ => rfl)]
  rfl

/-- The request made by `reserve` for `n >= 1` slots of a type whose size is
positive and a multiple of its alignment, a power of two, has a positive size
and does not wrap. -/
theorem layout_request {sizeof_T alignof_T n : Nat} (hs : 0 < sizeof_T)
    (ha : is_pow2 alignof_T) (hdiv : alignof_T ∣ sizeof_T) (hn : 0 < n)
    (hc : n ≤ (W - 1) / sizeof_T) :
    positive_request (n * sizeof_T) alignof_T ∧ n * sizeof_T < W := by
  have h1 : n * sizeof_T ≤ W - 1 := (Nat.le_div_iff_mul_le hs).mp hc
  have hW : 0 < W := by decide
  have hlt : n * sizeof_T < W := by omega
  refine ⟨⟨ha, Nat.mul_pos hn hs, ?_⟩, hlt⟩
  obtain ⟨k, hk, rfl⟩ := ha
  obtain ⟨c, hc2⟩ := Dvd.dvd.mul_left hdiv n
  have hWk : W = 2 ^ k * 2 ^ (64 - k) := by
    unfold W
    rw [← Nat.pow_add]
    congr 1
    omega
  rw [hc2, hWk] at hlt
  have hcd : c < 2 ^ (64 - k) := Nat.lt_of_mul_lt_mul_left hlt
  have : 2 ^ k * (c + 1) ≤ 2 ^ k * 2 ^ (64 - k) := Nat.mul_le_mul_left _ hcd
  rw [hc2, hWk]
  rw [Nat.mul_add, Nat.mul_one] at this
  exact this

/-- The link depends only on the storage block and the capacity. -/
theorem owns_congr {T : Type} {sizeof_T buffer total : Nat} {mr : MemoryResource}
    {v v2 : Vector T} (hd : v2.data_ = v.data_) (hc : v2.capacity_ = v.capacity_)
    (h : v.owns sizeof_T buffer total mr) : v2.owns sizeof_T buffer total mr := by
  unfold Vector.owns at h ⊢
  rw [hd, hc]
  exact h

/-- A `reserve` that returns normally keeps the link: the new block was handed
out by the arena and the old one, if any, was returned with its own address
and size. -/
theorem owns_reserve {T : Type} {sizeof_T alignof_T buffer total : Nat}
    {mr mr2 : MemoryResource} {v v2 : Vector T} {n : Nat} (hs : 0 < sizeof_T)
    (ha : is_pow2 alignof_T) (hdiv : alignof_T ∣ sizeof_T)
    (h : v.owns sizeof_T buffer total mr)
    (hok : Vector.reserve sizeof_T alignof_T mr v n = (.ok (), mr2, v2)) :
    v2.owns sizeof_T buffer total mr2 := by
  by_cases hc : n ≤ v.capacity_
  · unfold Vector.reserve at hok
    rw [if_pos hc] at hok
    simp only [Prod.mk.injEq, true_and] at hok
    rw [← hok.1, ← hok.2]
    exact h
  · obtain ⟨new_data, mr1, halloc, hv2, hnull, hold⟩ := vector_reserve_grow (by omega) hok
    unfold allocator_allocate at halloc
    by_cases hlen : (W - 1) / sizeof_T < n
    · rw [if_pos hlen] at halloc
      simp at halloc
    · rw [if_neg hlen] at halloc
      obtain ⟨hreq, hlt⟩ := layout_request hs ha hdiv (show 0 < n by omega) (by omega)
      have hpos : ∀ out, Matched positive_request buffer total mr out →
          new_data ≠ 0 ∧ Matched positive_request buffer total mr1 ((new_data, n * sizeof_T) :: out) := by
        intro out hm
        have hm1 := matched_allocate_eq (n * sizeof_T) alignof_T new_data mr1 hm hreq halloc
        have hb := (matched_facts (fun _ _ hr => ⟨hr.1, hr.2.2⟩) hm).2.2.1
        have := (allocate_then_deallocate_positive 0 hm hreq (by rw [halloc])).1
        exact ⟨by omega, hm1⟩
      unfold Vector.owns at h ⊢
      rw [hv2]
      simp only
      rcases h with ⟨h0, hm⟩ | ⟨hne, hcap, hm⟩
      · obtain ⟨hnd, hm1⟩ := hpos _ hm
        rw [hnull h0]
        exact Or.inr ⟨hnd, hlt, hm1⟩
      · obtain ⟨hnd, hm1⟩ := hpos _ hm
        have hde := hold hne
        unfold allocator_deallocate at hde
        rw [Nat.mod_eq_of_lt hcap] at hde
        exact Or.inr ⟨hnd, hlt,
          matched_deallocate_eq v.data_ (v.capacity_ * sizeof_T) alignof_T mr2
            [(new_data, n * sizeof_T)] hm1 (List.Perm.swap _ _ _) hde⟩

/-- The common body of `push_back` and `emplace_back` keeps the link. -/
theorem owns_push_back {T : Type} {sizeof_T alignof_T buffer total : Nat}
    {mr mr2 : MemoryResource} {v v2 : Vector T} {value : T} (hs : 0 < sizeof_T)
    (ha : is_pow2 alignof_T) (hdiv : alignof_T ∣ sizeof_T)
    (h : v.owns sizeof_T buffer total mr)
    (hok : Vector.push_back sizeof_T alignof_T mr v value = (.ok (), mr2, v2)) :
    v2.owns sizeof_T buffer total mr2 := by
  unfold Vector.push_back at hok
  by_cases hfull : v.size_ = v.capacity_
  · rw [if_pos hfull] at hok
    generalize hr : Vector.reserve sizeof_T alignof_T mr v
      (if v.capacity_ ≠ 0 then (v.capacity_ * 2) % W else 1) = r at hok
    obtain ⟨o, mr1, v1⟩ := r
    cases o with
    | error e => simp at hok
    | ok u =>
      cases u
      have h1 := owns_reserve hs ha hdiv h hr
      simp only at hok
      split at hok
      · simp only [Prod.mk.injEq, true_and] at hok
        rw [← hok.1, ← hok.2]
        exact owns_congr rfl rfl h1
      · simp at hok
  · rw [if_neg hfull] at hok
    simp only at hok
    split at hok
    · simp only [Prod.mk.injEq, true_and] at hok
      rw [← hok.1, ← hok.2]
      exact owns_congr rfl rfl h
    · simp at hok

/-- Every sequence of calls that all return normally keeps the link. -/
theorem owns_call_all {T : Type} {sizeof_T alignof_T buffer total : Nat} (hs : 0 < sizeof_T)
    (ha : is_pow2 alignof_T) (hdiv : alignof_T ∣ sizeof_T) (calls : List (Call T)) :
    ∀ (mr mr2 : MemoryResource) (v v2 : Vector T), v.owns sizeof_T buffer total mr →
      Vector.call_all sizeof_T alignof_T mr v calls = (.ok (), mr2, v2) →
      v2.owns sizeof_T buffer total mr2 := by
  induction calls with
  | nil =>
    intro mr mr2 v v2 h hok
    simp only [Vector.call_all, Prod.mk.injEq, true_and] at hok
    rw [← hok.1, ← hok.2]
    exact h
  | cons c rest ih =>
    intro mr mr2 v v2 h hok
    unfold Vector.call_all at hok
    generalize hr : Vector.call sizeof_T alignof_T mr v c = r at hok
    obtain ⟨o, mr1, v1⟩ := r
    cases o with
    | error e => simp at hok
    | ok u =>
      cases u
      simp only at hok
      refine ih mr1 mr2 v1 v2 ?_ hok
      cases c with
      | push_back value => exact owns_push_back hs ha hdiv h hr
      | emplace_back value =>
        have hr2 : Vector.push_back sizeof_T alignof_T mr v value = (.ok (), mr1, v1) := hr
        exact owns_push_back hs ha hdiv h hr2
      | reserve n => exact owns_reserve hs ha hdiv h hr
      | clear =>
        simp only [Vector.call, Prod.mk.injEq, true_and] at hr
        rw [← hr.1, ← hr.2]
        exact owns_congr rfl rfl h

/-- C17: for a `Vector` that is the only user of a fresh arena, whose element
type has a positive size that is a multiple of its alignment, a power of two:
after any sequence of `push_back` / `emplace_back` / `reserve` / `clear` calls
that all return normally, the destructor returns normally and leaves the arena
in a state reached by matched calls with no block outstanding (every block
taken by `reserve` was given back with its own address and byte size, none
twice), whose free list is the single block `{0, total}` and whose allocated
list is empty; a `Vector` whose `data_` is null makes no `deallocate` call: its
destructor leaves the arena as it is. -/
theorem C17_destructor_returns_storage {T : Type} (sizeof_T alignof_T buffer total : Nat)
    (calls : List (Call T)) (mr : MemoryResource) (v : Vector T) (hs : 0 < sizeof_T)
    (ha : is_pow2 alignof_T) (hdiv : alignof_T ∣ sizeof_T) (hb : 0 < buffer) (ht : total < W)
    (hok : Vector.call_all sizeof_T alignof_T (MemoryResource.create buffer total)
      (Vector.create T) calls = (.ok (), mr, v)) :
    (∃ mr2, Vector.destroy sizeof_T alignof_T mr v = (.ok (), mr2, v.clear) ∧
      Matched positive_request buffer total mr2 [] ∧
      mr2.free_list_ = [⟨0, total⟩] ∧ mr2.allocated_list_ = []) ∧
    ∀ (mr3 : MemoryResource) (v3 : Vector T), v3.data_ = 0 →
      Vector.destroy sizeof_T alignof_T mr3 v3 = (.ok (), mr3, v3.clear) := by
  have h0 : (Vector.create T).owns sizeof_T buffer total (MemoryResource.create buffer total) :=
    Or.inl ⟨rfl, Matched.fresh hb ht⟩
  have h := owns_call_all hs ha hdiv calls _ _ _ _ h0 hok
  have hnull : ∀ (mr3 : MemoryResource) (v3 : Vector T), v3.data_ = 0 →
      Vector.destroy sizeof_T alignof_T mr3 v3 = (.ok (), mr3, v3.clear) := by
    intro mr3 v3 h3
    unfold Vector.destroy
    rw [if_neg (by simpa [Vector.clear] using h3)]
  refine ⟨?_, hnull⟩
  rcases h with ⟨hd, hm⟩ | ⟨hne, hcap, hm⟩
  · exact ⟨mr, hnull mr v hd, hm, matched_all_returned hm⟩
  · have hcomp := matched_deallocate_completes alignof_T hm (List.mem_cons_self _ _)
    have hm2 := Matched.deallocate v.data_ (v.capacity_ * sizeof_T) alignof_T hm
      (List.Perm.refl _) hcomp
    refine ⟨(do_deallocate mr v.data_ (v.capacity_ * sizeof_T) alignof_T).2, ?_, hm2,
      matched_all_returned hm2⟩
    unfold Vector.destroy
    rw [if_pos (by simpa [Vector.clear] using hne)]
    unfold allocator_deallocate
    show (match do_deallocate mr v.data_ ((v.capacity_ * sizeof_T) % W) alignof_T with
      | (r, mr1) => (r, mr1, v.clear)) = _
    rw [Nat.mod_eq_of_lt hcap]
    generalize do_deallocate mr v.data_ (v.capacity_ * sizeof_T) alignof_T = r at hcomp
    obtain ⟨o, mr1⟩ := r
    simp only at hcomp
    subst hcomp
    rfl

/-- C17 on a `Vector<int>` over a fresh arena of 2048 bytes: after two
`push_back`, `reserve(10)`, `clear()` and one `emplace_back`, the storage block
is `{12, 40}`; the destructor returns it and the arena is `[{0, 2048}]` / `[]`
again. -/
theorem C17_destructor_returns_storage_witness :
    (Vector.call_all 4 4 (MemoryResource.create 4096 2048) (Vector.create Nat)
        [.push_back 1, .push_back 2, .reserve 10, .clear, .emplace_back 3]
      = (.ok (), ⟨4096, 2048, [⟨0, 12⟩, ⟨52, 1996⟩], [⟨12, 40⟩]⟩, ⟨4108, 1, 10, [3]⟩) ∧
      Vector.destroy 4 4 ⟨4096, 2048, [⟨0, 12⟩, ⟨52, 1996⟩], [⟨12, 40⟩]⟩
        (⟨4108, 1, 10, [3]⟩ : Vector Nat)
        = (.ok (), ⟨4096, 2048, [⟨0, 2048⟩], []⟩, ⟨4108, 0, 10, []⟩)) ∧
    (∃ mr2, Vector.destroy 4 4 ⟨4096, 2048, [⟨0, 12⟩, ⟨52, 1996⟩], [⟨12, 40⟩]⟩
        (⟨4108, 1, 10, [3]⟩ : Vector Nat)
        = (.ok (), mr2, (⟨4108, 1, 10, [3]⟩ : Vector Nat).clear) ∧
      Matched positive_request 4096 2048 mr2 [] ∧
      mr2.free_list_ = [⟨0, 2048⟩] ∧ mr2.allocated_list_ = []) ∧
    ∀ (mr3 : MemoryResource) (v3 : Vector Nat), v3.data_ = 0 →
      Vector.destroy 4 4 mr3 v3 = (.ok (), mr3, v3.clear) :=
  ⟨⟨by decide, by decide⟩,
    C17_destructor_returns_storage 4 4 4096 2048
      [.push_back 1, .push_back 2, .reserve 10, .clear, .emplace_back 3]
      ⟨4096, 2048, [⟨0, 12⟩, ⟨52, 1996⟩], [⟨12, 40⟩]⟩ ⟨4108, 1, 10, [3]⟩
      (by decide) (by decide) (by decide) (by decide) (by decide) (by decide)⟩

end Lab5
